import Mathlib

/-!
Shallow embedding of the csv-lineage-explorer core logic.

The definitions below are translated from the TypeScript source:
* `src/components/DataLineageGraph.tsx` — table-map construction, memoized
  level computation, bypass-edge synthesis, node/edge emission;
* `src/components/DataLineageFilters.tsx` — cascading facet filter engine;
* `src/pages/Index.tsx` — header validation and row filtering;
* the `useLineageState` hook — dataset hash (`generateCsvHash`).

JavaScript `Map` objects are modelled as association lists whose new keys are
appended at the end (JS `Map.set` keeps insertion order); JS `Set` objects as
lists queried by membership.  The recursive `calculateLevel` function is given
explicit fuel; a theorem below shows the chosen fuel is always sufficient, so
the `Option` layer is an artifact of the embedding, not of the program.
-/

namespace Lineage

/-- One parsed row of the lineage CSV (interface `TableData` in
`DataLineageGraph.tsx`). -/
structure TableData where
  childTableName : String
  childTableType : String
  relationship : String
  parentTableName : String
  parentTableType : String
deriving DecidableEq, Repr

/-- `toLowerCase()`, modelled at the character-list level (evaluates by
kernel reduction, unlike `String.map`). -/
def lowerStr (s : String) : String := String.mk (s.data.map Char.toLower)

/-- `trim()`: drop leading and trailing whitespace. -/
def trimStr (s : String) : String :=
  String.mk
    (((s.data.dropWhile Char.isWhitespace).reverse.dropWhile
        Char.isWhitespace).reverse)

/-- Header normalization used by `DataLineageGraph.tsx` line 81:
`h.toLowerCase().trim()`. -/
def normalizeGraphHeader (h : String) : String := trimStr (lowerStr h)

/-- `row[i] || ''` — out-of-range access yields `undefined`, which `|| ''`
turns into the empty string (and the empty string stays empty). -/
def cellOrEmpty (row : List String) (i : Nat) : String := (row.get? i).getD ""

/-- The five column indexes looked up in `DataLineageGraph.tsx` lines 82-88;
`none` plays the role of JS `indexOf` returning `-1`. -/
def columnIndexes (headers : List String) :
    Option (Nat × Nat × Nat × Nat × Nat) :=
  match headers.findIdx? (· == "childtablename"),
        headers.findIdx? (· == "childtabletype"),
        headers.findIdx? (· == "relationship"),
        headers.findIdx? (· == "parenttablename"),
        headers.findIdx? (· == "parenttabletype") with
  | some i1, some i2, some i3, some i4, some i5 => some (i1, i2, i3, i4, i5)
  | _, _, _, _, _ => none

/-- The `tableData` useMemo of `DataLineageGraph.tsx` lines 78-103: parse the
grid into `TableData` records, or return `[]` when the grid is empty or a
required column is missing. -/
def tableDataOf (csvData : List (List String)) : List TableData :=
  match csvData with
  | [] => []
  | header :: rows =>
    match columnIndexes (header.map normalizeGraphHeader) with
    | none => []
    | some (i1, i2, i3, i4, i5) =>
      rows.map fun row =>
        { childTableName := cellOrEmpty row i1
          childTableType := cellOrEmpty row i2
          relationship := cellOrEmpty row i3
          parentTableName := cellOrEmpty row i4
          parentTableType := cellOrEmpty row i5 }

/-- Value stored for one table in the `tableMap`
(`DataLineageGraph.tsx` line 109). -/
structure TableInfo where
  type : String
  children : List String
  parents : List String
deriving DecidableEq, Repr

/-- `Map<string, TableInfo>` as an insertion-ordered association list. -/
abbrev TableMap := List (String × TableInfo)

def tmGet (tm : TableMap) (k : String) : Option TableInfo := List.lookup k tm

def tmHas (tm : TableMap) (k : String) : Bool := (tmGet tm k).isSome

/-- In-place update of an existing key, as JS object mutation through
`tableMap.get(name)!` does. -/
def tmModify (tm : TableMap) (k : String) (f : TableInfo → TableInfo) :
    TableMap :=
  tm.map fun kv => if kv.1 == k then (kv.1, f kv.2) else kv

/-- `if (!tableMap.has(name)) tableMap.set(name, ...)` — create an entry
with empty parent/child lists unless one already exists. -/
def tmEnsure (tm : TableMap) (k : String) (t : String) : TableMap :=
  if tmHas tm k then tm else tm ++ [(k, ⟨t, [], []⟩)]

/-- Body of the build loop, `DataLineageGraph.tsx` lines 112-126: create the
parent entry if absent, then the child entry if absent, then push the child
onto the parent's `children` and the parent onto the child's `parents`. -/
def addRecord (tm : TableMap) (r : TableData) : TableMap :=
  tmModify
    (tmModify
      (tmEnsure (tmEnsure tm r.parentTableName r.parentTableType)
        r.childTableName r.childTableType)
      r.parentTableName
      (fun i => { i with children := i.children ++ [r.childTableName] }))
    r.childTableName
    (fun i => { i with parents := i.parents ++ [r.parentTableName] })

def buildTableMap (td : List TableData) : TableMap := td.foldl addRecord []

/-- `DataLineageGraph.tsx` line 129. -/
def visibleTables (tm : TableMap) (hiddenNodes : List String) : List String :=
  (tm.map Prod.fst).filter (fun name => !hiddenNodes.contains name)

/-- A synthesized bypass edge before id assignment
(`DataLineageGraph.tsx` line 136). -/
structure BypassEdge where
  source : String
  target : String
  relationship : String
deriving DecidableEq, Repr

/-- The bypass edges contributed by one hidden node: every visible parent
crossed with every visible child (`DataLineageGraph.tsx` lines 138-156). -/
def bypassFor (tm : TableMap) (hiddenNodes : List String)
    (hiddenNode : String) : List BypassEdge :=
  match tmGet tm hiddenNode with
  | none => []
  | some info =>
    info.parents.flatMap fun parent =>
      if hiddenNodes.contains parent then []
      else info.children.flatMap fun child =>
        if hiddenNodes.contains child then []
        else [⟨parent, child, "via " ++ hiddenNode⟩]

/-- `createBypassEdges`, `DataLineageGraph.tsx` lines 135-161. -/
def createBypassEdges (tm : TableMap) (hiddenNodes : List String) :
    List BypassEdge :=
  hiddenNodes.flatMap (bypassFor tm hiddenNodes)

/-- The shared mutable `visited` set and `levels` map of
`DataLineageGraph.tsx` lines 164-165.  New levels are appended at the end,
matching JS `Map.set` insertion order. -/
structure LevelState where
  visited : List String
  levels : List (String × Nat)
deriving Repr

def lookupLevel (levels : List (String × Nat)) (k : String) : Option Nat :=
  List.lookup k levels

/-- `Math.max(...)` over a list of naturals; the source only applies it to
nonempty lists, where folding from `0` agrees with the JS maximum. -/
def maxOfList (ls : List Nat) : Nat := ls.foldl Nat.max 0

/-- `tableInfo.parents.map(parent => calculateLevel(parent, level))` —
JS evaluates the mapped calls left to right against the shared state, then
takes `Math.max`; this helper runs `step` over the list and returns the
list of results together with the final state. -/
def calcLevelsGo (step : String → LevelState → Option (Nat × LevelState)) :
    List String → LevelState → Option (List Nat × LevelState)
  | [], s => some ([], s)
  | p :: ps1, s =>
    match step p s with
    | none => none
    | some (l, s1) =>
      match calcLevelsGo step ps1 s1 with
      | none => none
      | some (ls, s2) => some (l :: ls, s2)

/-- `calculateLevel`, `DataLineageGraph.tsx` lines 168-186, with explicit
fuel for the recursion (structural in the fuel, so it evaluates by kernel
reduction).  `levels.get(tableName) || 0` becomes `getD 0`
(`0 || 0 = 0`, so the two agree even when the stored level is `0`). -/
def calcLevel (tm : TableMap) : Nat → String → Nat → LevelState →
    Option (Nat × LevelState)
  | 0, _, _, _ => none
  | Nat.succ fuel1, tableName, level, s =>
    if s.visited.contains tableName then
      some ((lookupLevel s.levels tableName).getD 0, s)
    else
      let s1 : LevelState := ⟨tableName :: s.visited, s.levels⟩
      match tmGet tm tableName with
      | none => some (level, ⟨s1.visited, s1.levels ++ [(tableName, level)]⟩)
      | some info =>
        if info.parents.isEmpty then
          some (level, ⟨s1.visited, s1.levels ++ [(tableName, level)]⟩)
        else
          match calcLevelsGo (fun p st => calcLevel tm fuel1 p level st)
              info.parents s1 with
          | none => none
          | some (ls, s2) =>
            let currentLevel := maxOfList ls + 1
            some (currentLevel,
                  ⟨s2.visited, s2.levels ++ [(tableName, currentLevel)]⟩)

/-- Fuel sufficient for any single `calculateLevel` call: the recursion depth
is bounded by the number of distinct table names plus one. -/
def levelFuel (tm : TableMap) : Nat := tm.length + 1

/-- `visibleTables.forEach(tableName => calculateLevel(tableName))`,
`DataLineageGraph.tsx` line 188, threading the shared state. -/
def runLevels (tm : TableMap) (tables : List String) : Option LevelState :=
  tables.foldlM
    (fun s name => (calcLevel tm (levelFuel tm) name 0 s).map Prod.snd)
    ⟨[], []⟩

/-- First-occurrence deduplication, the key order of a JS `Map` filled by
repeated `set`. -/
def insertionDedup (xs : List Nat) : List Nat :=
  xs.foldl (fun acc x => if acc.contains x then acc else acc ++ [x]) []

/-- `levelGroups`, `DataLineageGraph.tsx` lines 191-197: group table names by
level, keys in order of first appearance, names in `levels` iteration
order. -/
def levelGroups (levels : List (String × Nat)) : List (Nat × List String) :=
  (insertionDedup (levels.map Prod.snd)).map fun lv =>
    (lv, (levels.filter (fun kv => kv.2 == lv)).map Prod.fst)

/-- Output node (the fields of the emitted React Flow node that carry
data: id, type, computed or saved position, and the filtered parent/child
lists). -/
structure GraphNode where
  id : String
  tableType : String
  x : Nat
  y : Nat
  parents : List String
  children : List String
deriving DecidableEq, Repr

/-- Node creation, `DataLineageGraph.tsx` lines 200-221.  The source uses a
non-null assertion `tableMap.get(tableName)!`; the embedding supplies a
default that is provably never used. -/
def buildNodes (tm : TableMap) (hiddenNodes : List String)
    (nodePositions : List (String × Nat × Nat))
    (levels : List (String × Nat)) : List GraphNode :=
  (levelGroups levels).flatMap fun lg =>
    lg.2.enum.filterMap fun it =>
      if hiddenNodes.contains it.2 then none
      else
        let info := (tmGet tm it.2).getD ⟨"", [], []⟩
        let pos := match List.lookup it.2 nodePositions with
          | some p => p
          | none => (lg.1 * 300, it.1 * 120 + (lg.1 % 2) * 60)
        some { id := it.2
               tableType := info.type
               x := pos.1
               y := pos.2
               parents := info.parents.filter (fun p => !hiddenNodes.contains p)
               children := info.children.filter (fun c => !hiddenNodes.contains c) }

/-- Output edge (id, endpoints and relationship label of the emitted React
Flow edge). -/
structure GraphEdge where
  id : String
  source : String
  target : String
  relationship : String
deriving DecidableEq, Repr

/-- One iteration of the original-edge loop, `DataLineageGraph.tsx`
lines 227-247: emit the edge when both endpoints are visible, advancing the
shared `edgeIndex`. -/
def origEdgeStep (hiddenNodes : List String) (acc : List GraphEdge × Nat)
    (r : TableData) : List GraphEdge × Nat :=
  if !hiddenNodes.contains r.childTableName
      && !hiddenNodes.contains r.parentTableName then
    (acc.1 ++ [⟨"e-" ++ toString acc.2, r.parentTableName,
                r.childTableName, r.relationship⟩], acc.2 + 1)
  else acc

/-- One iteration of the bypass-edge loop, `DataLineageGraph.tsx`
lines 250-270. -/
def bypassEdgeStep (acc : List GraphEdge × Nat) (b : BypassEdge) :
    List GraphEdge × Nat :=
  (acc.1 ++ [⟨"e-bypass-" ++ toString acc.2, b.source, b.target,
              b.relationship⟩], acc.2 + 1)

/-- Edge emission, `DataLineageGraph.tsx` lines 224-270: one edge per input
record with both endpoints visible, then the bypass edges, ids carrying one
shared running index. -/
def buildEdges (td : List TableData) (bypass : List BypassEdge)
    (hiddenNodes : List String) : List GraphEdge :=
  (bypass.foldl bypassEdgeStep
    (td.foldl (origEdgeStep hiddenNodes) ([], 0))).1

/-- The `initialNodes/initialEdges` useMemo, `DataLineageGraph.tsx`
lines 106-273, as a pure function of the grid, the hidden-node set and the
saved node positions. -/
def initialGraph (csvData : List (List String)) (hiddenNodes : List String)
    (nodePositions : List (String × Nat × Nat)) :
    List GraphNode × List GraphEdge :=
  if (tableDataOf csvData).isEmpty then ([], [])
  else
    match runLevels (buildTableMap (tableDataOf csvData))
        (visibleTables (buildTableMap (tableDataOf csvData)) hiddenNodes) with
    | none => ([], [])
    | some s =>
      (buildNodes (buildTableMap (tableDataOf csvData)) hiddenNodes
          nodePositions s.levels,
        buildEdges (tableDataOf csvData)
          (createBypassEdges (buildTableMap (tableDataOf csvData)) hiddenNodes)
          hiddenNodes)

/-- Hiding a node, `DataLineageGraph.tsx` lines 289-294: copy the set and add
the id (a JS `Set` ignores an already-present element). -/
def hideNode (hiddenNodes : List String) (n : String) : List String :=
  if hiddenNodes.contains n then hiddenNodes else hiddenNodes ++ [n]

/-- Revealing a node, `DataLineageFilters.tsx` lines 102-109: copy the set
and delete the id. -/
def revealNode (hiddenNodes : List String) (n : String) : List String :=
  hiddenNodes.filter (fun x => x ≠ n)

/-! ### Facet filter engine (`DataLineageFilters.tsx`) -/

/-- A row object as built by `rowObjects` in `Index.tsx`: one entry per
header column; the value is `none` when the data row is shorter than the
header (JS `undefined`). -/
abbrev RowObj := List (String × Option String)

/-- `FilterState`: column name → selected values. -/
abbrev FilterState := List (String × List String)

/-- JS `String(v)`: a present string is unchanged, `undefined` prints as
`"undefined"`. -/
def jsString (v : Option String) : String := v.getD "undefined"

/-- `row[col]` followed by `String(...)`.  `Object.fromEntries` lets a later
duplicate key win, hence the lookup on the reversed list; a missing key is
JS `undefined`. -/
def rowStr (row : RowObj) (col : String) : String :=
  match List.lookup col row.reverse with
  | some v => jsString v
  | none => "undefined"

/-- The `rowObjects` useMemo of `Index.tsx` lines 53-58. -/
def rowObjects (csvData : List (List String)) : List RowObj :=
  match csvData with
  | [] => []
  | [_] => []
  | header :: rows =>
    rows.map fun row => header.enum.map fun ic => (ic.2, row.get? ic.1)

/-- The predicate inside `getFilteredData`, `DataLineageFilters.tsx`
lines 36-44: AND over filter entries; an entry passes when it is the
excluded column, or its selection is empty, or the row value is selected. -/
def passesFilters (filters : FilterState) (excludeColumn : Option String)
    (row : RowObj) : Bool :=
  filters.all fun cf =>
    (some cf.1 == excludeColumn) || cf.2.isEmpty
      || cf.2.contains (rowStr row cf.1)

/-- `getFilteredData`, `DataLineageFilters.tsx` lines 36-44. -/
def getFilteredData (data : List RowObj) (filters : FilterState)
    (excludeColumn : Option String) : List RowObj :=
  data.filter (passesFilters filters excludeColumn)

/-- `getAvailableValues`, `DataLineageFilters.tsx` lines 47-51:
`[...new Set(values)].sort()`.  JS spreads the set keeping first
occurrences while `List.dedup` keeps last ones; the member set is the same
and the subsequent sort fixes the order.  The JS default comparator orders
strings by UTF-16 units, modelled by the lexicographic order on `String`. -/
def getAvailableValues (data : List RowObj) (filters : FilterState)
    (columnName : String) : List String :=
  let filteredData := getFilteredData data filters (some columnName)
  let values := (filteredData.map (fun row => rowStr row columnName)).dedup
  List.insertionSort (· ≤ ·) values

/-! ### Header validation and row filtering (`Index.tsx`) -/

/-- `h.toLowerCase().replace(/\s+/g, '')` — lowercase and remove all
whitespace, the normalization used by `validateCSVStructure` and
`filteredCsvData` in `Index.tsx`. -/
def stripLower (s : String) : String :=
  String.mk ((lowerStr s).data.filter (fun c => !c.isWhitespace))

/-- The five canonical column names (`expectedHeaders` in `Index.tsx`
lines 22-28). -/
def expectedHeaders : List String :=
  ["childTableName", "childTableType", "relationship",
   "parentTableName", "parentTableType"]

/-- `validateCSVStructure`, `Index.tsx` lines 21-33. -/
def validateCSVStructure (headers : List String) : Bool :=
  expectedHeaders.all fun expected =>
    (headers.map stripLower).contains (lowerStr expected)

/-- The canonical columns absent from a header after normalization — the
list the spec says a structural failure report should enumerate.  (Derived
from the spec wording; the code never computes it.) -/
def missingColumns (headers : List String) : List String :=
  expectedHeaders.filter fun expected =>
    !((headers.map stripLower).contains (lowerStr expected))

/-- The fixed description shown by the structural-failure toast in
`Index.tsx` lines 118-124. -/
def structuralFailureDescription : String :=
  "CSV must have minimum 5 columns: childTableName, childTableType, relationship, parentTableName, parentTableType"

/-- The column names enumerated by that fixed description: always all five
canonical names, independent of which ones are missing. -/
def reportedColumns : List String := expectedHeaders

/-- Outcome of `handleGenerateLineage` (`Index.tsx` lines 91-144) on an
already-parsed grid. -/
inductive GenerateResult where
  | emptyFile : GenerateResult
  | structuralFailure : String → GenerateResult
  | success : List (List String) → GenerateResult
deriving DecidableEq, Repr

/-- `handleGenerateLineage` after parsing: empty-file check, then header
validation; only on success does the grid reach the graph. -/
def handleGenerateLineage (parsed : List (List String)) : GenerateResult :=
  match parsed with
  | [] => .emptyFile
  | header :: _ =>
    if validateCSVStructure header then .success parsed
    else .structuralFailure structuralFailureDescription

/-- The graph the page displays for a given parse outcome: on anything but
success, `csvData` stays `[]` and the graph component receives an empty
grid. -/
def pipelineGraph (parsed : List (List String)) (hiddenNodes : List String)
    (nodePositions : List (String × Nat × Nat)) :
    List GraphNode × List GraphEdge :=
  match handleGenerateLineage parsed with
  | .success csv => initialGraph csv hiddenNodes nodePositions
  | _ => initialGraph [] hiddenNodes nodePositions

/-- `filteredCsvData`, `Index.tsx` lines 61-77: keep the header, keep each
data row passing every filter entry; an entry with an empty selection or an
unmatched column name imposes no restriction. -/
def filteredCsvData (csvData : List (List String)) (filters : FilterState) :
    List (List String) :=
  match csvData with
  | [] => []
  | headers :: rows =>
    headers :: rows.filter fun row =>
      filters.all fun cf =>
        cf.2.isEmpty ||
          (match headers.findIdx? (fun h => stripLower h == stripLower cf.1) with
           | none => true
           | some colIdx =>
             match row.get? colIdx with
             | some v => cf.2.contains v
             | none => false)

/-! ### Dataset hash (`useLineageState`) -/

/-- The base64 alphabet used by `btoa`. -/
def base64Alphabet : List Char :=
  "ABCDEFGHIJKLMNOPQRSTUVWXYZabcdefghijklmnopqrstuvwxyz0123456789+/".toList

def base64Char (n : Nat) : Char := (base64Alphabet.get? n).getD 'A'

/-- Standard base64 of a byte list, with `=` padding, as `btoa` emits. -/
def btoaBytes : List Nat → List Char
  | [] => []
  | [b1] => [base64Char (b1 / 4), base64Char (b1 % 4 * 16), '=', '=']
  | [b1, b2] => [base64Char (b1 / 4), base64Char (b1 % 4 * 16 + b2 / 16),
                 base64Char (b2 % 16 * 4), '=']
  | b1 :: b2 :: b3 :: rest =>
    base64Char (b1 / 4) :: base64Char (b1 % 4 * 16 + b2 / 16) ::
    base64Char (b2 % 16 * 4 + b3 / 64) :: base64Char (b3 % 64) ::
    btoaBytes rest

/-- JS `btoa` on a string of code units (the hashed strings are ASCII, where
code points and code units agree). -/
def btoa (s : String) : String := String.mk (btoaBytes (s.data.map Char.toNat))

/-- `data.map(row => row.join(',')).join('|')`. -/
def csvHashInput (data : List (List String)) : String :=
  String.intercalate "|" (data.map fun row => String.intercalate "," row)

/-- `generateCsvHash` from the `useLineageState` hook:
`btoa(serialized).slice(0, 32)` — the first 32 characters of the base64
text (base64 output is ASCII, so code units and characters agree). -/
def generateCsvHash (data : List (List String)) : String :=
  String.mk ((btoa (csvHashInput data)).data.take 32)

/-! ### Invariants of the level computation -/

/-- How a `calculateLevel` call may change the shared state: the visited set
only grows, and the level map grows by appending entries whose keys had not
been visited before the call. -/
structure StateLe (s s2 : LevelState) : Prop where
  visited_sub : ∀ x, x ∈ s.visited → x ∈ s2.visited
  levels_ext : ∃ t, s2.levels = s.levels ++ t ∧ ∀ kv ∈ t, kv.1 ∉ s.visited

/-- Number of distinct table names not yet visited — the fuel measure. -/
def unvisitedCount (tm : TableMap) (visited : List String) : Nat :=
  (((tm.map Prod.fst).dedup).filter (fun k => !visited.contains k)).length

/-- Every visited name outside the in-progress set `E` has a recorded
level. -/
def LevelsCover (E : List String) (s : LevelState) : Prop :=
  ∀ x ∈ s.visited, x ∈ E ∨ (lookupLevel s.levels x).isSome

/-- Only visited names carry levels. -/
def KeysVisited (s : LevelState) : Prop :=
  ∀ k, (lookupLevel s.levels k).isSome = true → k ∈ s.visited

/-- The layering invariant: whenever a levelled table has parents, each
parent is levelled strictly below it (`level parent + 1 ≤ level child`). -/
def PInv (tm : TableMap) (levels : List (String × Nat)) : Prop :=
  ∀ c info lc, tmGet tm c = some info → lookupLevel levels c = some lc →
    ∀ p ∈ info.parents, ∃ lp, lookupLevel levels p = some lp ∧ lp + 1 ≤ lc

/-- `p` is a parent of `c` in the table map. -/
def Rel (tm : TableMap) (p c : String) : Prop :=
  ∃ info, tmGet tm c = some info ∧ p ∈ info.parents

/-- The parent/child relation has no (nonempty) cycle. -/
def Acyclic (tm : TableMap) : Prop :=
  ∀ x, ¬ Relation.TransGen (Rel tm) x x

/-- Rank function used to certify acyclicity of the example grid. -/
def chainRank (x : String) : Nat :=
  if x = "a" then 0 else if x = "b" then 1 else 2

/-! ### Derived definitions and example grids used by the theorems -/

/-- The id-free content of an emitted edge. -/
def edgeData (e : GraphEdge) : String × String × String :=
  (e.source, e.target, e.relationship)

/-- Shared example grid: the scenario of spec section 8 (`a ← b ← c`). -/
def canonHeader : List String :=
  ["childTableName", "childTableType", "relationship",
   "parentTableName", "parentTableType"]

def chainGrid : List (List String) :=
  [canonHeader, ["a", "T1", "uses", "b", "T2"], ["b", "T2", "reads", "c", "T1"]]

/-- The stored type of a table, as an `Option`. -/
def typeIn (tm : TableMap) (name : String) : Option String :=
  (tmGet tm name).map TableInfo.type

/-- The type a single record contributes for `name` on first creation:
the parent entry is created before the child entry. -/
def recType (r : TableData) (name : String) : Option String :=
  if name = r.parentTableName then some r.parentTableType
  else if name = r.childTableName then some r.childTableType
  else none

/-- The type recorded for `name` by the build loop: the one contributed by
the first record in which `name` appears (as parent, or failing that as
child).  This is the amended, first-write-wins reading of the claim. -/
def firstTypeOf (td : List TableData) (name : String) : Option String :=
  match td with
  | [] => none
  | r :: rs => (recType r name).or (firstTypeOf rs name)

/-- Grid in which table `a` appears with type `T1` first and `T2` later. -/
def conflictGrid : List (List String) :=
  [canonHeader, ["a", "T1", "r", "b", "TB"], ["a", "T2", "r", "c", "TC"]]

/-- The `children` list stored for a table (empty when the table has no
entry). -/
def childrenOf (tm : TableMap) (name : String) : List String :=
  ((tmGet tm name).map TableInfo.children).getD []

/-- The `parents` list stored for a table. -/
def parentsOf (tm : TableMap) (name : String) : List String :=
  ((tmGet tm name).map TableInfo.parents).getD []

/-- Grid with a duplicated parent/child pair (`p → h` twice with different
relationships) plus one `h → c` record. -/
def dupPairGrid : List (List String) :=
  [canonHeader, ["h", "T", "r1", "p", "T"], ["h", "T", "r2", "p", "T"],
   ["c", "T", "r3", "h", "T"]]

/-- Header (from the spec scenario) missing the `relationship` column. -/
def noRelHeader : List String :=
  ["childTableName", "childTableType", "parentTableName", "parentTableType"]

/-- `chainGrid` with a single data cell changed (`T1` → `T9` in the last
column of the last row). -/
def changedCellGrid : List (List String) :=
  [canonHeader, ["a", "T1", "uses", "b", "T2"], ["b", "T2", "reads", "c", "T9"]]

/-! ### Generic association-list lemmas -/

theorem lookup_append {α β : Type} [BEq α] (k : α) (l t : List (α × β)) :
    List.lookup k (l ++ t)
      = match List.lookup k l with
        | some v => some v
        | none => List.lookup k t := by
  induction l with
  | nil => simp [List.lookup]
  | cons a l1 ih =>
    rw [List.cons_append, List.lookup, List.lookup]
    by_cases hk : k == a.1 <;> simp [hk, ih]

theorem lookup_append_of_some {α β : Type} [BEq α] {k : α} {l : List (α × β)}
    {v : β} (t : List (α × β)) (h : List.lookup k l = some v) :
    List.lookup k (l ++ t) = some v := by
  rw [lookup_append, h]

theorem mem_keys_of_lookup {α β : Type} [BEq α] [LawfulBEq α] {k : α}
    {l : List (α × β)} {v : β} (h : List.lookup k l = some v) :
    k ∈ l.map Prod.fst := by
  induction l with
  | nil => simp [List.lookup] at h
  | cons a t ih =>
    rw [List.lookup] at h
    by_cases hk : k == a.1
    · simp only [beq_iff_eq] at hk
      simp [hk]
    · simp only [Bool.not_eq_true] at hk
      rw [hk] at h
      simp [ih h]

theorem lookup_of_mem_keys {α β : Type} [BEq α] [LawfulBEq α] {k : α}
    {l : List (α × β)} (h : k ∈ l.map Prod.fst) :
    ∃ v, List.lookup k l = some v := by
  induction l with
  | nil => simp at h
  | cons a t ih =>
    rw [List.lookup]
    by_cases hk : k == a.1
    · exact ⟨a.2, by simp [hk]⟩
    · have hk2 : (k == a.1) = false := by simpa using hk
      rw [hk2]
      apply ih
      simp only [beq_iff_eq] at hk
      simpa [hk] using h

theorem length_filter_mono {α : Type} (l : List α) (p q : α → Bool)
    (h : ∀ x, p x = true → q x = true) :
    (l.filter p).length ≤ (l.filter q).length := by
  induction l with
  | nil => simp
  | cons a t ih =>
    by_cases hp : p a
    · simp only [List.filter_cons, hp, h a hp]
      simpa using ih
    · simp only [List.filter_cons, hp]
      by_cases hq : q a <;> simp [hq] <;> omega

/-! ### C4: hide followed by reveal restores the hidden-node set -/

theorem revealNode_hideNode (H : List String) (n : String) (hn : ¬ n ∈ H) :
    revealNode (hideNode H n) n = H := by
  unfold hideNode revealNode
  rw [if_neg (by simp [hn])]
  rw [List.filter_append]
  have h1 : H.filter (fun x => x ≠ n) = H :=
    List.filter_eq_self.mpr (fun a ha => by
      simp only [ne_eq, decide_eq_true_eq]
      rintro rfl; exact hn ha)
  have h2 : [n].filter (fun x => x ≠ n) = [] := by simp
  rw [h1, h2, List.append_nil]

/-- C4 (confirmed).  Hiding a visible node `n` and then revealing it brings
the hidden-node set back to its original value, and since the displayed
graph is a pure function of `(csvData, hiddenNodes, nodePositions)` the
displayed edge set — compared ignoring edge ids via `edgeData` — is restored
exactly: all of `n`'s original edges reappear and the bypass edges routed
through `n` disappear. -/
theorem hide_reveal_restores_edges (csvData : List (List String))
    (H : List String) (pos : List (String × Nat × Nat)) (n : String)
    (hn : ¬ n ∈ H) :
    ((initialGraph csvData (revealNode (hideNode H n) n) pos).2).map edgeData
      = ((initialGraph csvData H pos).2).map edgeData := by
  rw [revealNode_hideNode H n hn]

theorem hide_reveal_restores_edges_witness :
    (¬ "b" ∈ ([] : List String))
    ∧ ((initialGraph chainGrid (revealNode (hideNode [] "b") "b") []).2).map edgeData
        = ((initialGraph chainGrid [] []).2).map edgeData :=
  ⟨by simp, hide_reveal_restores_edges chainGrid [] [] "b" (by simp)⟩

/-! ### C5: available filter values -/

/-- C5 (confirmed).  `availableValues(column)` is duplicate-free, sorted
ascending in the lexicographic order on strings, and contains exactly the
values `row[column]` of the rows passing every other column's filter (the
column itself being excluded); in particular every listed value has a
witness row.  A `Nodup`, `≤`-sorted list is uniquely determined by its
member set, so the three conjuncts characterize the sequence the claim
describes. -/
theorem availableValues_characterization (data : List RowObj)
    (filters : FilterState) (columnName : String) :
    (getAvailableValues data filters columnName).Nodup
    ∧ List.Sorted (· ≤ ·) (getAvailableValues data filters columnName)
    ∧ ∀ v, v ∈ getAvailableValues data filters columnName ↔
        ∃ row, row ∈ data ∧ passesFilters filters (some columnName) row = true
          ∧ rowStr row columnName = v := by
  unfold getAvailableValues getFilteredData
  refine ⟨?_, List.sorted_insertionSort _ _, ?_⟩
  · exact ((List.perm_insertionSort _ _).nodup_iff).mpr (List.nodup_dedup _)
  · intro v
    rw [(List.perm_insertionSort _ _).mem_iff, List.mem_dedup, List.mem_map]
    constructor
    · rintro ⟨row, hrow, rfl⟩
      rw [List.mem_filter] at hrow
      exact ⟨row, hrow.1, hrow.2, rfl⟩
    · rintro ⟨row, hrow, hp, hv⟩
      exact ⟨row, List.mem_filter.mpr ⟨hrow, hp⟩, hv⟩

/-! ### C10: a filter entry naming an unknown column is unrestrictive -/

/-- C10 (confirmed).  In `filteredCsvData`, a filter entry whose normalized
column name matches no header column lets every data row pass, so deleting
the entry does not change the result — regardless of its selected values. -/
theorem unknown_filter_column_unrestrictive (headers : List String)
    (rows : List (List String)) (f1 f2 : FilterState) (col : String)
    (sel : List String)
    (h : headers.findIdx? (fun hd => stripLower hd == stripLower col) = none) :
    filteredCsvData (headers :: rows) (f1 ++ (col, sel) :: f2)
      = filteredCsvData (headers :: rows) (f1 ++ f2) := by
  unfold filteredCsvData
  simp only [List.cons.injEq, true_and]
  apply List.filter_congr
  intro row _
  simp [List.all_append, List.all_cons, h]

/-! ### Table-map lookup lemmas -/

theorem lookup_cons {β : Type} (name a : String) (b : β)
    (t : List (String × β)) :
    List.lookup name ((a, b) :: t)
      = if name = a then some b else List.lookup name t := by
  rw [List.lookup]
  by_cases h : name = a
  · simp [h]
  · have hb : (name == a) = false := by simpa using h
    simp [h, hb]

theorem tmModify_cons (k1 : String) (v1 : TableInfo) (tl : TableMap)
    (k : String) (f : TableInfo → TableInfo) :
    tmModify ((k1, v1) :: tl) k f
      = (if k1 = k then (k1, f v1) else (k1, v1)) :: tmModify tl k f := by
  simp only [tmModify, List.map_cons]
  by_cases h : k1 = k <;> simp [h]

theorem tmGet_modify (tm : TableMap) (k : String) (f : TableInfo → TableInfo)
    (name : String) :
    tmGet (tmModify tm k f) name
      = if name = k then (tmGet tm k).map f else tmGet tm name := by
  induction tm with
  | nil => by_cases h : name = k <;> simp [tmGet, tmModify, List.lookup, h]
  | cons kv tl ih =>
    obtain ⟨k1, v1⟩ := kv
    rw [tmModify_cons]
    by_cases h1 : k1 = k
    · rw [if_pos h1]
      subst h1
      by_cases h2 : name = k1
      · subst h2
        simp [tmGet, lookup_cons]
      · simp only [tmGet, lookup_cons, if_neg h2] at ih ⊢
        exact ih
    · rw [if_neg h1]
      by_cases h2 : name = k1
      · subst h2
        simp [tmGet, lookup_cons, h1]
      · have hkk1 : ¬ k = k1 := fun he => h1 he.symm
        simp only [tmGet, lookup_cons, if_neg h2, if_neg hkk1] at ih ⊢
        exact ih

theorem tmGet_append_new (tm : TableMap) (k : String) (v : TableInfo)
    (name : String) :
    tmGet (tm ++ [(k, v)]) name
      = match tmGet tm name with
        | some i => some i
        | none => if name = k then some v else none := by
  unfold tmGet
  rw [lookup_append]
  cases h : List.lookup name tm
  · simp only [h]
    rw [lookup_cons]
    simp [List.lookup]
  · simp [h]

/-! ### C8: tableType is first-write-wins, not last-write-wins -/

theorem typeIn_modify (tm : TableMap) (k : String) (f : TableInfo → TableInfo)
    (name : String) (hf : ∀ i, (f i).type = i.type) :
    typeIn (tmModify tm k f) name = typeIn tm name := by
  unfold typeIn
  rw [tmGet_modify]
  by_cases h : name = k
  · subst h
    cases htm : tmGet tm name <;> simp [htm, hf]
  · simp [h]

theorem typeIn_ensure (tm : TableMap) (k : String) (t : String)
    (name : String) :
    typeIn (tmEnsure tm k t) name
      = (typeIn tm name).or (if name = k then some t else none) := by
  unfold tmEnsure
  by_cases h : tmHas tm k
  · rw [if_pos h]
    by_cases hk : name = k
    · subst hk
      unfold tmHas at h
      obtain ⟨i, hi⟩ := Option.isSome_iff_exists.mp h
      simp [typeIn, hi]
    · simp [hk]
  · rw [if_neg h]
    unfold typeIn
    rw [tmGet_append_new]
    cases htm : tmGet tm name
    · by_cases hk : name = k <;> simp [htm, hk]
    · simp [htm]

theorem typeIn_modify_children (tm : TableMap) (k c name : String) :
    typeIn (tmModify tm k (fun i => { i with children := i.children ++ [c] }))
        name
      = typeIn tm name :=
  typeIn_modify tm k _ name (fun _ => rfl)

theorem typeIn_modify_parents (tm : TableMap) (k p name : String) :
    typeIn (tmModify tm k (fun i => { i with parents := i.parents ++ [p] }))
        name
      = typeIn tm name :=
  typeIn_modify tm k _ name (fun _ => rfl)

theorem addRecord_type (tm : TableMap) (r : TableData) (name : String) :
    typeIn (addRecord tm r) name = (typeIn tm name).or (recType r name) := by
  unfold addRecord
  rw [typeIn_modify_parents, typeIn_modify_children,
    typeIn_ensure, typeIn_ensure, Option.or_assoc]
  unfold recType
  by_cases h1 : name = r.parentTableName
  · simp [h1]
  · by_cases h2 : name = r.childTableName
    · subst h2
      simp [h1]
    · simp [h1, h2]

theorem foldl_addRecord_type (td : List TableData) :
    ∀ (tm : TableMap) (name : String),
      typeIn (td.foldl addRecord tm) name
        = (typeIn tm name).or (firstTypeOf td name) := by
  induction td with
  | nil => intro tm name; simp [firstTypeOf]
  | cons r rs ih =>
    intro tm name
    rw [List.foldl_cons, ih, addRecord_type, Option.or_assoc]
    rfl

/-- C8 (corrected).  The `tableType` stored for a table name is the one from
the FIRST record in which the name appears (as parent first, then child):
the build loop sets the type only when it creates the entry and never
overwrites it, so conflicting later types are ignored. -/
theorem tableType_first_write_wins (td : List TableData) (name : String) :
    (tmGet (buildTableMap td) name).map TableInfo.type = firstTypeOf td name := by
  have h := foldl_addRecord_type td [] name
  simpa [buildTableMap, typeIn, tmGet, List.lookup] using h

/-- C8 counterexample: with conflicting types `T1` (first record) and `T2`
(last record) for table `a`, the code stores `T1` — the claimed
last-write-wins behaviour would store `T2`. -/
theorem tableType_not_last_write :
    (tmGet (buildTableMap (tableDataOf conflictGrid)) "a").map TableInfo.type
        = some "T1"
    ∧ (tmGet (buildTableMap (tableDataOf conflictGrid)) "a").map TableInfo.type
        ≠ some "T2" :=
  ⟨by decide, by decide⟩

/-! ### C7: parent and child lists keep one entry per record -/

theorem proj_modify {γ : Type} (proj : TableInfo → γ) (d : γ) (tm : TableMap)
    (k : String) (f : TableInfo → TableInfo) (name : String)
    (hf : ∀ i, proj (f i) = proj i) :
    ((tmGet (tmModify tm k f) name).map proj).getD d
      = ((tmGet tm name).map proj).getD d := by
  rw [tmGet_modify]
  by_cases h : name = k
  · subst h
    cases htm : tmGet tm name <;> simp [htm, hf]
  · simp [h]

theorem proj_ensure {γ : Type} (proj : TableInfo → γ) (d : γ) (tm : TableMap)
    (k : String) (t : String) (name : String)
    (hd : proj ⟨t, [], []⟩ = d) :
    ((tmGet (tmEnsure tm k t) name).map proj).getD d
      = ((tmGet tm name).map proj).getD d := by
  unfold tmEnsure
  by_cases h : tmHas tm k
  · simp [h]
  · rw [if_neg h, tmGet_append_new]
    cases htm : tmGet tm name
    · by_cases hk : name = k <;> simp [htm, hk, hd]
    · simp [htm]

theorem tmHas_ensure_self (tm : TableMap) (k t : String) :
    tmHas (tmEnsure tm k t) k = true := by
  unfold tmEnsure
  by_cases h : tmHas tm k
  · simp [h]
  · rw [if_neg h]
    unfold tmHas tmGet at h ⊢
    rw [lookup_append]
    rw [Option.not_isSome_iff_eq_none] at h
    simp [h, lookup_cons]

theorem tmHas_modify (tm : TableMap) (k : String) (f : TableInfo → TableInfo)
    (name : String) :
    tmHas (tmModify tm k f) name = tmHas tm name := by
  unfold tmHas
  rw [tmGet_modify]
  by_cases h : name = k
  · subst h
    cases htm : tmGet tm name <;> simp [htm]
  · simp [h]

theorem childrenOf_modify_push (tm : TableMap) (k c : String)
    (hk : tmHas tm k = true) (name : String) :
    childrenOf
        (tmModify tm k (fun i => { i with children := i.children ++ [c] })) name
      = if name = k then childrenOf tm k ++ [c] else childrenOf tm name := by
  unfold childrenOf
  rw [tmGet_modify]
  by_cases h : name = k
  · subst h
    obtain ⟨i, hi⟩ := Option.isSome_iff_exists.mp hk
    simp [hi]
  · simp [h]

theorem parentsOf_modify_push (tm : TableMap) (k p : String)
    (hk : tmHas tm k = true) (name : String) :
    parentsOf
        (tmModify tm k (fun i => { i with parents := i.parents ++ [p] })) name
      = if name = k then parentsOf tm k ++ [p] else parentsOf tm name := by
  unfold parentsOf
  rw [tmGet_modify]
  by_cases h : name = k
  · subst h
    obtain ⟨i, hi⟩ := Option.isSome_iff_exists.mp hk
    simp [hi]
  · simp [h]

theorem tmHas_ensure_mono (tm : TableMap) (k t name : String)
    (h : tmHas tm name = true) : tmHas (tmEnsure tm k t) name = true := by
  unfold tmEnsure
  by_cases hk : tmHas tm k
  · simpa [hk]
  · rw [if_neg hk]
    unfold tmHas at h ⊢
    rw [tmGet_append_new]
    obtain ⟨i, hi⟩ := Option.isSome_iff_exists.mp h
    simp [hi]

theorem childrenOf_ensure (tm : TableMap) (k t name : String) :
    childrenOf (tmEnsure tm k t) name = childrenOf tm name :=
  proj_ensure TableInfo.children [] tm k t name rfl

theorem parentsOf_ensure (tm : TableMap) (k t name : String) :
    parentsOf (tmEnsure tm k t) name = parentsOf tm name :=
  proj_ensure TableInfo.parents [] tm k t name rfl

theorem childrenOf_modify_parents (tm : TableMap) (k p name : String) :
    childrenOf
        (tmModify tm k (fun i => { i with parents := i.parents ++ [p] })) name
      = childrenOf tm name :=
  proj_modify TableInfo.children [] tm k _ name (fun _ => rfl)

theorem parentsOf_modify_children (tm : TableMap) (k c name : String) :
    parentsOf
        (tmModify tm k (fun i => { i with children := i.children ++ [c] })) name
      = parentsOf tm name :=
  proj_modify TableInfo.parents [] tm k _ name (fun _ => rfl)

theorem addRecord_children (tm : TableMap) (r : TableData) (name : String) :
    childrenOf (addRecord tm r) name
      = childrenOf tm name
          ++ (if name = r.parentTableName then [r.childTableName] else []) := by
  unfold addRecord
  rw [childrenOf_modify_parents, childrenOf_modify_push]
  · rw [childrenOf_ensure, childrenOf_ensure, childrenOf_ensure,
      childrenOf_ensure]
    by_cases h : name = r.parentTableName <;> simp [h]
  · exact tmHas_ensure_mono _ _ _ _ (tmHas_ensure_self tm _ _)

theorem addRecord_parents (tm : TableMap) (r : TableData) (name : String) :
    parentsOf (addRecord tm r) name
      = parentsOf tm name
          ++ (if name = r.childTableName then [r.parentTableName] else []) := by
  unfold addRecord
  rw [parentsOf_modify_push]
  · rw [parentsOf_modify_children, parentsOf_modify_children,
      parentsOf_ensure, parentsOf_ensure, parentsOf_ensure, parentsOf_ensure]
    by_cases h : name = r.childTableName <;> simp [h]
  · rw [tmHas_modify]
    exact tmHas_ensure_self _ _ _

theorem foldl_addRecord_children_count (td : List TableData) :
    ∀ (tm : TableMap) (p c : String),
      (childrenOf (td.foldl addRecord tm) p).count c
        = (childrenOf tm p).count c
          + (td.filter
              (fun r => r.parentTableName == p && r.childTableName == c)).length := by
  induction td with
  | nil => intro tm p c; simp
  | cons r rs ih =>
    intro tm p c
    rw [List.foldl_cons, ih, addRecord_children, List.count_append,
      List.filter_cons]
    by_cases h1 : r.parentTableName = p
    · by_cases h2 : r.childTableName = c
      · simp [h1, h2]
        omega
      · have h2s : ¬ c = r.childTableName := fun h => h2 h.symm
        simp [h1, h2, h2s]
    · have h1s : ¬ p = r.parentTableName := fun h => h1 h.symm
      simp [h1, h1s]

theorem foldl_addRecord_parents_count (td : List TableData) :
    ∀ (tm : TableMap) (p c : String),
      (parentsOf (td.foldl addRecord tm) c).count p
        = (parentsOf tm c).count p
          + (td.filter
              (fun r => r.parentTableName == p && r.childTableName == c)).length := by
  induction td with
  | nil => intro tm p c; simp
  | cons r rs ih =>
    intro tm p c
    rw [List.foldl_cons, ih, addRecord_parents, List.count_append,
      List.filter_cons]
    by_cases h2 : r.childTableName = c
    · by_cases h1 : r.parentTableName = p
      · simp [h1, h2]
        omega
      · have h1s : ¬ p = r.parentTableName := fun h => h1 h.symm
        simp [h1, h2, h1s]
    · have h2s : ¬ c = r.childTableName := fun h => h2 h.symm
      simp [h2, h2s]

/-- How many times `c` appears in the children list of `p`: once per input
record for the pair. -/
theorem children_count (td : List TableData) (p c : String) :
    (childrenOf (buildTableMap td) p).count c
      = (td.filter
          (fun r => r.parentTableName == p && r.childTableName == c)).length := by
  have h := foldl_addRecord_children_count td [] p c
  simpa [buildTableMap, childrenOf, tmGet, List.lookup] using h

/-- How many times `p` appears in the parents list of `c`. -/
theorem parents_count (td : List TableData) (p c : String) :
    (parentsOf (buildTableMap td) c).count p
      = (td.filter
          (fun r => r.parentTableName == p && r.childTableName == c)).length := by
  have h := foldl_addRecord_parents_count td [] p c
  simpa [buildTableMap, parentsOf, tmGet, List.lookup] using h

theorem foldl_origEdgeStep_nohide (td : List TableData) :
    ∀ (acc : List GraphEdge × Nat),
      ((td.foldl (origEdgeStep []) acc).1).map edgeData
        = acc.1.map edgeData
          ++ td.map
              (fun r => (r.parentTableName, r.childTableName, r.relationship)) := by
  induction td with
  | nil => intro acc; simp
  | cons r rs ih =>
    intro acc
    rw [List.foldl_cons, ih]
    unfold origEdgeStep
    simp [edgeData]

/-- With nothing hidden, the emitted edge list has exactly one edge per
input record, in order, carrying the record's endpoints and relationship. -/
theorem buildEdges_nohide_data (td : List TableData) :
    (buildEdges td [] []).map edgeData
      = td.map (fun r => (r.parentTableName, r.childTableName, r.relationship)) := by
  unfold buildEdges
  rw [List.foldl_nil]
  simpa using foldl_origEdgeStep_nohide td ([], 0)

/-- A node displayed with nothing hidden carries exactly the stored parents
and children lists of its table. -/
theorem mem_buildNodes_nohide {tm : TableMap} {pos : List (String × Nat × Nat)}
    {levels : List (String × Nat)} {n : GraphNode}
    (hn : n ∈ buildNodes tm [] pos levels) :
    n.parents = parentsOf tm n.id ∧ n.children = childrenOf tm n.id := by
  simp only [buildNodes, List.mem_flatMap, List.mem_filterMap] at hn
  obtain ⟨lg, hlg, it, hit, hsome⟩ := hn
  rw [if_neg (by simp)] at hsome
  obtain rfl := Option.some.inj hsome
  refine ⟨?_, ?_⟩
  · show _ = parentsOf tm it.2
    unfold parentsOf
    cases htm : tmGet tm it.2 <;> simp [htm]
  · show _ = childrenOf tm it.2
    unfold childrenOf
    cases htm : tmGet tm it.2 <;> simp [htm]

/-- C7 (corrected).  The parents and children collections are NOT
deduplicated: each input record contributes one entry, so a pair connected
by `k` records appears `k` times; the edge list also carries one edge per
record.  Nodes displayed with nothing hidden expose exactly these lists. -/
theorem parents_children_per_record (csvData : List (List String))
    (p c : String) (pos : List (String × Nat × Nat)) :
    ((childrenOf (buildTableMap (tableDataOf csvData)) p).count c
        = ((tableDataOf csvData).filter
            (fun r => r.parentTableName == p && r.childTableName == c)).length)
    ∧ ((parentsOf (buildTableMap (tableDataOf csvData)) c).count p
        = ((tableDataOf csvData).filter
            (fun r => r.parentTableName == p && r.childTableName == c)).length)
    ∧ ((buildEdges (tableDataOf csvData) [] []).map edgeData
        = (tableDataOf csvData).map
            (fun r => (r.parentTableName, r.childTableName, r.relationship)))
    ∧ ∀ n ∈ (initialGraph csvData [] pos).1,
        n.parents = parentsOf (buildTableMap (tableDataOf csvData)) n.id
        ∧ n.children = childrenOf (buildTableMap (tableDataOf csvData)) n.id := by
  refine ⟨children_count _ p c, parents_count _ p c,
    buildEdges_nohide_data _, ?_⟩
  intro n hn
  unfold initialGraph at hn
  split at hn
  · simp at hn
  · split at hn
    · simp at hn
    · exact mem_buildNodes_nohide hn

/-- C7 counterexample: on `dupPairGrid` the displayed graph (nothing
hidden) contains a node whose parents list has a duplicate member — the
claim says the collections never do. -/
theorem parents_children_duplicates :
    ∃ n ∈ (initialGraph dupPairGrid [] []).1, ¬ n.parents.Nodup := by
  decide

/-! ### C3: bypass edges -/

theorem string_data_inj {s t : String} (h : s.data = t.data) : s = t := by
  cases s; cases t; simp_all

/-- Two `via` labels agree exactly when the hidden-node names agree. -/
theorem via_inj {h h' : String} (he : ("via " ++ h : String) = "via " ++ h') :
    h = h' := by
  have hd := congrArg String.data he
  rw [String.data_append, String.data_append] at hd
  exact string_data_inj (List.append_cancel_left hd)

theorem bypass_children_count (children : List String) (H : List String)
    (pfix h p c : String) :
    ((children.flatMap fun child =>
        if H.contains child then []
        else [(⟨pfix, child, "via " ++ h⟩ : BypassEdge)]).count
      (⟨p, c, "via " ++ h⟩ : BypassEdge))
      = if pfix = p ∧ ¬ c ∈ H then children.count c else 0 := by
  induction children with
  | nil => simp
  | cons ch rest ih =>
    simp only [List.flatMap_cons, List.count_append, ih]
    have hhead : ((if H.contains ch then []
          else [(⟨pfix, ch, "via " ++ h⟩ : BypassEdge)]).count
        (⟨p, c, "via " ++ h⟩ : BypassEdge))
        = if pfix = p ∧ c = ch ∧ ¬ ch ∈ H then 1 else 0 := by
      by_cases hch : ch ∈ H
      · simp [hch]
      · have hchb : H.contains ch = false := by simpa using hch
        rw [hchb]
        by_cases h1 : pfix = p <;> by_cases h3 : c = ch <;>
          simp [h1, h3, hch, List.count_cons, BypassEdge.mk.injEq, eq_comm]
    rw [hhead]
    by_cases h1 : pfix = p
    · by_cases h2 : c ∈ H
      · by_cases h3 : c = ch
        · subst h3
          simp [h1, h2]
        · simp [h1, h2, h3]
      · rw [List.count_cons]
        by_cases h3 : c = ch
        · subst h3
          simp [h1, h2]
          omega
        · have h3b : (c == ch) = false := by simpa using h3
          have h3s : ¬ ch = c := fun he => h3 he.symm
          simp [h1, h2, h3, h3b, h3s]
    · simp [h1]

theorem bypass_parents_count (parents children : List String)
    (H : List String) (h p c : String) :
    ((parents.flatMap fun parent =>
        if H.contains parent then []
        else children.flatMap fun child =>
          if H.contains child then []
          else [(⟨parent, child, "via " ++ h⟩ : BypassEdge)]).count
      (⟨p, c, "via " ++ h⟩ : BypassEdge))
      = if ¬ p ∈ H ∧ ¬ c ∈ H
        then parents.count p * children.count c
        else 0 := by
  induction parents with
  | nil => simp
  | cons pa rest ih =>
    simp only [List.flatMap_cons, List.count_append, ih]
    have hhead : ((if H.contains pa then []
          else children.flatMap fun child =>
            if H.contains child then []
            else [(⟨pa, child, "via " ++ h⟩ : BypassEdge)]).count
        (⟨p, c, "via " ++ h⟩ : BypassEdge))
        = if pa = p ∧ ¬ pa ∈ H ∧ ¬ c ∈ H then children.count c else 0 := by
      by_cases hpa : pa ∈ H
      · simp [hpa]
      · have hpab : H.contains pa = false := by simpa using hpa
        rw [hpab]
        simp only [Bool.false_eq_true, if_false]
        rw [bypass_children_count]
        by_cases h1 : pa = p
        · subst h1
          by_cases h2 : c ∈ H <;> simp [h2, hpa]
        · by_cases h2 : c ∈ H <;> simp [h1, h2, hpa]
    rw [hhead]
    by_cases h1 : p ∈ H
    · have hfirst : ¬ (pa = p ∧ ¬ pa ∈ H ∧ ¬ c ∈ H) := by
        rintro ⟨rfl, hnp, _⟩
        exact hnp h1
      simp [h1, hfirst]
    · by_cases h2 : c ∈ H
      · simp [h1, h2]
      · rw [List.count_cons]
        by_cases h4 : pa = p
        · subst h4
          simp [h1, h2]
          ring
        · have h4b : (p == pa) = false := by
            simp only [beq_eq_false_iff_ne, ne_eq]
            exact fun he => h4 he.symm
          simp [h1, h2, h4, h4b]

/-- Every edge contributed by hidden node `x` carries the label
`"via " ++ x`. -/
theorem bypassFor_rel (tm : TableMap) (H : List String) (x : String)
    (b : BypassEdge) (hb : b ∈ bypassFor tm H x) :
    b.relationship = "via " ++ x := by
  unfold bypassFor at hb
  cases htm : tmGet tm x with
  | none => rw [htm] at hb; simp at hb
  | some info =>
    rw [htm] at hb
    rw [List.mem_flatMap] at hb
    obtain ⟨parent, _, hb⟩ := hb
    by_cases hp : H.contains parent
    · rw [if_pos hp] at hb
      simp at hb
    · rw [if_neg hp, List.mem_flatMap] at hb
      obtain ⟨child, _, hb⟩ := hb
      by_cases hc : H.contains child
      · rw [if_pos hc] at hb
        simp at hb
      · rw [if_neg hc] at hb
        simp at hb
        simp [hb]

theorem bypassFor_count (tm : TableMap) (H : List String) (h p c : String) :
    (bypassFor tm H h).count (⟨p, c, "via " ++ h⟩ : BypassEdge)
      = if ¬ p ∈ H ∧ ¬ c ∈ H
        then (parentsOf tm h).count p * (childrenOf tm h).count c
        else 0 := by
  unfold bypassFor
  cases htm : tmGet tm h with
  | none => simp [parentsOf, htm]
  | some info =>
    rw [bypass_parents_count]
    simp [parentsOf, childrenOf, htm]

theorem bypassFor_count_ne (tm : TableMap) (H : List String) (x h p c : String)
    (hne : ¬ x = h) :
    (bypassFor tm H x).count (⟨p, c, "via " ++ h⟩ : BypassEdge) = 0 := by
  rw [List.count_eq_zero]
  intro hb
  exact hne (via_inj (bypassFor_rel tm H x _ hb)).symm

theorem count_flatMap_bypassFor (tm : TableMap) (H : List String)
    (L : List String) (h p c : String) :
    ((L.flatMap (bypassFor tm H)).count (⟨p, c, "via " ++ h⟩ : BypassEdge))
      = L.count h * (bypassFor tm H h).count (⟨p, c, "via " ++ h⟩ : BypassEdge) := by
  induction L with
  | nil => simp
  | cons x rest ih =>
    simp only [List.flatMap_cons, List.count_append, ih]
    by_cases hx : x = h
    · subst hx
      rw [List.count_cons_self, Nat.succ_mul]
      omega
    · rw [bypassFor_count_ne tm H x h p c hx,
        List.count_cons_of_ne (fun he => hx he.symm)]
      omega

/-- C3 (corrected).  The multiset of synthesized bypass edges: for a
duplicate-free hidden set `H`, the edge `p → c` labeled `"via " ++ h`
appears once per pair of (parent-entry, child-entry) occurrences — i.e.
`(count of p in parents(h)) * (count of c in children(h))` times — when
`h ∈ H` and `p, c ∉ H`, and never otherwise.  When no parent/child pair is
repeated in the input these counts are 0 or 1 and the claim's
"exactly one edge per pair" reading holds; repeated pairs make the code
emit duplicates, which the counterexample exhibits. -/
theorem bypass_edges_count (csvData : List (List String)) (H : List String)
    (hH : H.Nodup) (h p c : String) :
    (createBypassEdges (buildTableMap (tableDataOf csvData)) H).count
        (⟨p, c, "via " ++ h⟩ : BypassEdge)
      = if h ∈ H ∧ ¬ p ∈ H ∧ ¬ c ∈ H
        then (parentsOf (buildTableMap (tableDataOf csvData)) h).count p
              * (childrenOf (buildTableMap (tableDataOf csvData)) h).count c
        else 0 := by
  unfold createBypassEdges
  rw [count_flatMap_bypassFor, bypassFor_count]
  by_cases h1 : h ∈ H
  · rw [List.count_eq_one_of_mem hH h1, one_mul]
    by_cases h2 : p ∈ H <;> by_cases h3 : c ∈ H <;> simp [h1, h2, h3]
  · rw [List.count_eq_zero_of_not_mem h1, Nat.zero_mul]
    simp [h1]

/-- C3 counterexample: with the pair `p → h` duplicated in the input and
`h` hidden, the bypass edge `p → c` labeled `via h` is emitted twice, not
once. -/
theorem bypass_edges_not_unique :
    (createBypassEdges (buildTableMap (tableDataOf dupPairGrid)) ["h"]).count
        (⟨"p", "c", "via h"⟩ : BypassEdge) = 2
    ∧ ¬ (createBypassEdges (buildTableMap (tableDataOf dupPairGrid)) ["h"]).count
        (⟨"p", "c", "via h"⟩ : BypassEdge) = 1 := by
  refine ⟨by decide, by decide⟩

theorem bypass_edges_count_witness :
    (["h"] : List String).Nodup
    ∧ (createBypassEdges (buildTableMap (tableDataOf dupPairGrid)) ["h"]).count
          (⟨"p", "c", "via " ++ "h"⟩ : BypassEdge)
        = if "h" ∈ ["h"] ∧ ¬ "p" ∈ (["h"] : List String)
              ∧ ¬ "c" ∈ (["h"] : List String)
          then (parentsOf (buildTableMap (tableDataOf dupPairGrid)) "h").count "p"
                * (childrenOf (buildTableMap (tableDataOf dupPairGrid)) "h").count "c"
          else 0 :=
  ⟨by decide, bypass_edges_count dupPairGrid ["h"] (by decide) "h" "p" "c"⟩

/-! ### C6: structural validation -/

theorem validate_true_iff (headers : List String) :
    validateCSVStructure headers = true ↔ missingColumns headers = [] := by
  unfold validateCSVStructure missingColumns
  rw [List.all_eq_true, List.filter_eq_nil_iff]
  constructor
  · intro hall e he
    have h := hall e he
    simpa using h
  · intro hnil e he
    have h := hnil e he
    simpa using h

/-- C6 (corrected).  When at least one canonical column is missing after
normalization, `handleGenerateLineage` reports a structural validation
failure — but with the FIXED description enumerating all five canonical
column names (`reportedColumns`), a superset of the missing ones, not the
missing list itself — and no graph is produced: the displayed graph is
`([], [])`. -/
theorem structural_failure_fixed_report (header : List String)
    (rows : List (List String)) (hidden : List String)
    (pos : List (String × Nat × Nat))
    (hmiss : missingColumns header ≠ []) :
    handleGenerateLineage (header :: rows)
        = .structuralFailure structuralFailureDescription
    ∧ (∀ m ∈ missingColumns header, m ∈ reportedColumns)
    ∧ pipelineGraph (header :: rows) hidden pos = ([], []) := by
  have hv : validateCSVStructure header = false := by
    rw [Bool.eq_false_iff]
    intro ht
    exact hmiss ((validate_true_iff header).mp ht)
  have hgen : handleGenerateLineage (header :: rows)
      = .structuralFailure structuralFailureDescription := by
    unfold handleGenerateLineage
    simp [hv]
  refine ⟨hgen, ?_, ?_⟩
  · intro m hm
    unfold missingColumns at hm
    exact List.mem_of_mem_filter hm
  · unfold pipelineGraph
    rw [hgen]
    rfl

/-- C6 counterexample: for a header whose only missing canonical column is
`relationship`, the failure report enumerates all five canonical names, not
the one-element missing list the claim describes. -/
theorem structural_report_not_missing_list :
    missingColumns noRelHeader = ["relationship"]
    ∧ reportedColumns ≠ ["relationship"]
    ∧ handleGenerateLineage [noRelHeader]
        = .structuralFailure structuralFailureDescription :=
  ⟨by decide, by decide, by decide⟩

theorem structural_failure_fixed_report_witness :
    (missingColumns noRelHeader ≠ [])
    ∧ (handleGenerateLineage (noRelHeader :: [["a", "T", "b", "T"]])
          = .structuralFailure structuralFailureDescription
        ∧ (∀ m ∈ missingColumns noRelHeader, m ∈ reportedColumns)
        ∧ pipelineGraph (noRelHeader :: [["a", "T", "b", "T"]]) [] []
            = ([], [])) :=
  ⟨by decide,
   structural_failure_fixed_report noRelHeader [["a", "T", "b", "T"]] [] []
     (by decide)⟩

/-! ### C9: the dataset hash -/

/-- C9 (code bug).  `generateCsvHash` keeps only the first 32 base64
characters, i.e. the first 24 bytes of the serialized grid.  The serialized
canonical header alone is 69 characters, so any two grids with the
canonical header — here two grids differing in one data cell — hash
identically with certainty, defeating the fingerprint the hash exists to
provide (its own comment says the hash identifies whether the same file is
loaded).  The determinism half of the claim holds trivially: the hash is a
pure function of the grid. -/
theorem csvHash_collision_on_cell_change :
    generateCsvHash chainGrid = generateCsvHash changedCellGrid
    ∧ chainGrid ≠ changedCellGrid :=
  ⟨rfl, by decide⟩

theorem unknown_filter_column_unrestrictive_witness :
    (canonHeader.findIdx?
        (fun hd => stripLower hd == stripLower "No Such Column") = none)
    ∧ filteredCsvData (canonHeader :: [["a", "T1", "uses", "b", "T2"]])
          ([] ++ ("No Such Column", ["zzz"]) :: [])
        = filteredCsvData (canonHeader :: [["a", "T1", "uses", "b", "T2"]])
          ([] ++ []) :=
  ⟨by decide,
   unknown_filter_column_unrestrictive canonHeader [["a", "T1", "uses", "b", "T2"]]
     [] [] "No Such Column" ["zzz"] (by decide)⟩

/-! ### C2/C1: the level computation -/

theorem lookup_eq_none {β : Type} {k : String} {t : List (String × β)}
    (h : ∀ kv ∈ t, ¬ kv.1 = k) : List.lookup k t = none := by
  induction t with
  | nil => rfl
  | cons kv tl ih =>
    rw [List.lookup]
    have hk : ¬ (k == kv.1) = true := by
      simp only [beq_iff_eq]
      intro he
      exact h kv (by simp) he.symm
    simp only [Bool.not_eq_true] at hk
    rw [hk]
    exact ih (fun x hx => h x (by simp [hx]))

theorem stateLe_refl (s : LevelState) : StateLe s s :=
  ⟨fun _ h => h, [], by simp, by simp⟩

theorem stateLe_trans {s1 s2 s3 : LevelState} (h1 : StateLe s1 s2)
    (h2 : StateLe s2 s3) : StateLe s1 s3 := by
  obtain ⟨t1, ht1, hk1⟩ := h1.levels_ext
  obtain ⟨t2, ht2, hk2⟩ := h2.levels_ext
  refine ⟨fun x hx => h2.visited_sub x (h1.visited_sub x hx),
    t1 ++ t2, by rw [ht2, ht1, List.append_assoc], ?_⟩
  intro kv hkv
  rcases List.mem_append.mp hkv with hm | hm
  · exact hk1 kv hm
  · intro hc
    exact hk2 kv hm (h1.visited_sub _ hc)

theorem stateLe_lookup_some {s s2 : LevelState} (h : StateLe s s2)
    {k : String} {v : Nat} (hv : lookupLevel s.levels k = some v) :
    lookupLevel s2.levels k = some v := by
  obtain ⟨t, ht, _⟩ := h.levels_ext
  rw [ht]
  exact lookup_append_of_some t hv

theorem stateLe_lookup_frozen {s s2 : LevelState} (h : StateLe s s2)
    {k : String} (hk : k ∈ s.visited) :
    lookupLevel s2.levels k = lookupLevel s.levels k := by
  obtain ⟨t, ht, hfresh⟩ := h.levels_ext
  rw [ht]
  unfold lookupLevel
  rw [lookup_append]
  cases hl : List.lookup k s.levels with
  | some v => rfl
  | none =>
    exact lookup_eq_none (fun kv hkv he => hfresh kv hkv (he ▸ hk))

theorem lookupLevel_append_last (l : List (String × Nat)) (k : String)
    (v : Nat) : (lookupLevel (l ++ [(k, v)]) k).isSome = true := by
  unfold lookupLevel
  rw [lookup_append]
  cases hl : List.lookup k l with
  | some w => simp
  | none => simp [lookup_cons]

theorem lookupLevel_append_cases {l : List (String × Nat)} {k c : String}
    {v lc : Nat} (h : lookupLevel (l ++ [(k, v)]) c = some lc) :
    lookupLevel l c = some lc
    ∨ (lookupLevel l c = none ∧ c = k ∧ lc = v) := by
  unfold lookupLevel at *
  rw [lookup_append] at h
  cases hl : List.lookup c l with
  | some w => rw [hl] at h; exact Or.inl h
  | none =>
    rw [hl] at h
    rw [lookup_cons] at h
    by_cases hc : c = k
    · rw [if_pos hc] at h
      exact Or.inr ⟨rfl, hc, (Option.some.inj h).symm⟩
    · rw [if_neg hc] at h
      simp [List.lookup] at h

theorem calcLevel_mono :
    ∀ (fuel : Nat) (tm : TableMap) (name : String) (level : Nat)
      (s : LevelState) (r : Nat) (s2 : LevelState),
      calcLevel tm fuel name level s = some (r, s2) →
      StateLe s s2 ∧ name ∈ s2.visited := by
  intro fuel
  induction fuel with
  | zero =>
    intro tm name level s r s2 h
    simp [calcLevel] at h
  | succ fuel1 ih =>
    have go : ∀ (tm : TableMap) (level : Nat) (ps : List String)
        (s : LevelState) (rs : List Nat) (s2 : LevelState),
        calcLevelsGo (fun p st => calcLevel tm fuel1 p level st) ps s
            = some (rs, s2) →
        StateLe s s2 := by
      intro tm level ps
      induction ps with
      | nil =>
        intro s rs s2 h
        rw [calcLevelsGo] at h
        obtain ⟨-, rfl⟩ := Prod.mk.inj (Option.some.inj h)
        exact stateLe_refl s
      | cons p ps1 ihp =>
        intro s rs s2 h
        rw [calcLevelsGo] at h
        cases h1 : calcLevel tm fuel1 p level s with
        | none => rw [h1] at h; exact absurd h (by simp)
        | some pr =>
          obtain ⟨l, s1⟩ := pr
          rw [h1] at h
          dsimp only at h
          cases h2 : calcLevelsGo (fun p st => calcLevel tm fuel1 p level st)
              ps1 s1 with
          | none => rw [h2] at h; exact absurd h (by simp)
          | some q =>
            obtain ⟨ls, s2'⟩ := q
            rw [h2] at h
            obtain ⟨-, rfl⟩ := Prod.mk.inj (Option.some.inj h)
            exact stateLe_trans (ih tm p level s l s1 h1).1 (ihp s1 ls s2' h2)
    intro tm name level s r s2 h
    rw [calcLevel] at h
    by_cases hv : s.visited.contains name
    · rw [if_pos hv] at h
      obtain ⟨-, rfl⟩ := Prod.mk.inj (Option.some.inj h)
      exact ⟨stateLe_refl s, by simpa using hv⟩
    · rw [if_neg hv] at h
      have hnv : name ∉ s.visited := by simpa using hv
      cases htm : tmGet tm name with
      | none =>
        rw [htm] at h
        dsimp only at h
        obtain ⟨-, rfl⟩ := Prod.mk.inj (Option.some.inj h)
        exact ⟨⟨fun x hx => by simp [hx], [(name, level)], rfl,
          by simpa using hnv⟩, by simp⟩
      | some info =>
        rw [htm] at h
        dsimp only at h
        by_cases hpar : info.parents.isEmpty
        · rw [if_pos hpar] at h
          obtain ⟨-, rfl⟩ := Prod.mk.inj (Option.some.inj h)
          exact ⟨⟨fun x hx => by simp [hx], [(name, level)], rfl,
            by simpa using hnv⟩, by simp⟩
        · rw [if_neg hpar] at h
          cases hgo : calcLevelsGo (fun p st => calcLevel tm fuel1 p level st)
              info.parents ⟨name :: s.visited, s.levels⟩ with
          | none => rw [hgo] at h; exact absurd h (by simp)
          | some q =>
            obtain ⟨ls, s2'⟩ := q
            rw [hgo] at h
            obtain ⟨-, rfl⟩ := Prod.mk.inj (Option.some.inj h)
            have hle1 : StateLe ⟨name :: s.visited, s.levels⟩ s2' := go _ _ _ _ _ _ hgo
            obtain ⟨t, ht, hfresh⟩ := hle1.levels_ext
            have hnamein : name ∈ s2'.visited :=
              hle1.visited_sub name (by simp)
            refine ⟨⟨?_, t ++ [(name, maxOfList ls + 1)], ?_, ?_⟩, hnamein⟩
            · intro x hx
              exact hle1.visited_sub x (by simp [hx])
            · show s2'.levels ++ [(name, maxOfList ls + 1)] = _
              rw [ht, List.append_assoc]
            · intro kv hkv
              rcases List.mem_append.mp hkv with hm | hm
              · intro hc
                exact hfresh kv hm (by simp [hc])
              · simp at hm
                subst hm
                exact hnv

theorem calcLevelsGo_mono (tm : TableMap) (fuel : Nat) (level : Nat) :
    ∀ (ps : List String) (s : LevelState) (rs : List Nat) (s2 : LevelState),
      calcLevelsGo (fun p st => calcLevel tm fuel p level st) ps s
          = some (rs, s2) →
      StateLe s s2 := by
  intro ps
  induction ps with
  | nil =>
    intro s rs s2 h
    rw [calcLevelsGo] at h
    obtain ⟨-, rfl⟩ := Prod.mk.inj (Option.some.inj h)
    exact stateLe_refl s
  | cons p ps1 ihp =>
    intro s rs s2 h
    rw [calcLevelsGo] at h
    cases h1 : calcLevel tm fuel p level s with
    | none => rw [h1] at h; exact absurd h (by simp)
    | some pr =>
      obtain ⟨l, s1⟩ := pr
      rw [h1] at h
      dsimp only at h
      cases h2 : calcLevelsGo (fun p st => calcLevel tm fuel p level st)
          ps1 s1 with
      | none => rw [h2] at h; exact absurd h (by simp)
      | some q =>
        obtain ⟨ls, s2'⟩ := q
        rw [h2] at h
        obtain ⟨-, rfl⟩ := Prod.mk.inj (Option.some.inj h)
        exact stateLe_trans (calcLevel_mono fuel tm p level s l s1 h1).1
          (ihp s1 ls s2' h2)

theorem unvisited_mono (tm : TableMap) (v1 v2 : List String)
    (h : ∀ x ∈ v1, x ∈ v2) :
    unvisitedCount tm v2 ≤ unvisitedCount tm v1 := by
  unfold unvisitedCount
  apply length_filter_mono
  intro x hx
  have hx2 : ¬ x ∈ v2 := by simpa using hx
  have : ¬ x ∈ v1 := fun hm => hx2 (h x hm)
  simpa using this

theorem length_filter_insert (l : List String) :
    ∀ (vis : List String) (n : String), l.Nodup → n ∈ l → ¬ n ∈ vis →
    (l.filter (fun k => !(n :: vis).contains k)).length + 1
      = (l.filter (fun k => !vis.contains k)).length := by
  induction l with
  | nil => intro vis n _ hn; simp at hn
  | cons a t iht =>
    intro vis n hl hn hv
    rw [List.filter_cons, List.filter_cons]
    by_cases ha : a = n
    · subst ha
      have hp1 : (!(a :: vis).contains a) = false := by simp
      have hp2 : (!vis.contains a) = true := by simpa using hv
      rw [hp1, hp2]
      simp only [Bool.false_eq_true, if_false, if_true]
      have hteq : t.filter (fun k => !(a :: vis).contains k)
          = t.filter (fun k => !vis.contains k) := by
        apply List.filter_congr
        intro x hx
        have hxa : ¬ x = a := fun he => (List.nodup_cons.mp hl).1 (he ▸ hx)
        simp [hxa]
      rw [hteq]
      simp
    · have hpe : (!(n :: vis).contains a) = (!vis.contains a) := by
        simp [ha]
      rw [hpe]
      have hn2 : n ∈ t := by
        rcases List.mem_cons.mp hn with he | ht2
        · exact absurd he.symm ha
        · exact ht2
      have hrec := iht vis n (List.nodup_cons.mp hl).2 hn2 hv
      by_cases hq : (!vis.contains a) = true
      · rw [if_pos hq, if_pos hq]
        simp only [List.length_cons]
        omega
      · rw [if_neg hq, if_neg hq]
        exact hrec

theorem unvisited_insert (tm : TableMap) (visited : List String)
    (name : String) (hk : name ∈ tm.map Prod.fst)
    (hv : ¬ name ∈ visited) :
    unvisitedCount tm (name :: visited) + 1 = unvisitedCount tm visited := by
  unfold unvisitedCount
  exact length_filter_insert _ visited name (List.nodup_dedup _)
    (List.mem_dedup.mpr hk) hv

theorem unvisited_le_length (tm : TableMap) (visited : List String) :
    unvisitedCount tm visited ≤ tm.length := by
  unfold unvisitedCount
  calc (((tm.map Prod.fst).dedup).filter _).length
      ≤ ((tm.map Prod.fst).dedup).length := List.length_filter_le _ _
    _ ≤ (tm.map Prod.fst).length := (List.dedup_sublist _).length_le
    _ = tm.length := List.length_map _ _

theorem calcLevel_total :
    ∀ (fuel : Nat) (tm : TableMap) (name : String) (level : Nat)
      (s : LevelState),
      unvisitedCount tm s.visited + 1 ≤ fuel →
      ∃ r s2, calcLevel tm fuel name level s = some (r, s2) := by
  intro fuel
  induction fuel with
  | zero => intro tm name level s hb; omega
  | succ fuel1 ih =>
    have go : ∀ (tm : TableMap) (level : Nat) (ps : List String)
        (s : LevelState),
        unvisitedCount tm s.visited + 1 ≤ fuel1 →
        ∃ rs s2, calcLevelsGo (fun p st => calcLevel tm fuel1 p level st) ps s
            = some (rs, s2) := by
      intro tm level ps
      induction ps with
      | nil => intro s _; exact ⟨[], s, rfl⟩
      | cons p ps1 ihp =>
        intro s hb
        obtain ⟨l, s1, h1⟩ := ih tm p level s hb
        have hb1 : unvisitedCount tm s1.visited + 1 ≤ fuel1 := by
          have := unvisited_mono tm s.visited s1.visited
            (calcLevel_mono fuel1 tm p level s l s1 h1).1.visited_sub
          omega
        obtain ⟨ls, s2, h2⟩ := ihp s1 hb1
        refine ⟨l :: ls, s2, ?_⟩
        rw [calcLevelsGo, h1]
        dsimp only
        rw [h2]
    intro tm name level s hb
    rw [calcLevel]
    by_cases hvis : s.visited.contains name
    · rw [if_pos hvis]
      exact ⟨_, _, rfl⟩
    · rw [if_neg hvis]
      cases htm : tmGet tm name with
      | none => exact ⟨_, _, rfl⟩
      | some info =>
        dsimp only
        by_cases hpar : info.parents.isEmpty
        · rw [if_pos hpar]
          exact ⟨_, _, rfl⟩
        · rw [if_neg hpar]
          have hkeys : name ∈ tm.map Prod.fst := mem_keys_of_lookup htm
          have hnv : ¬ name ∈ s.visited := by simpa using hvis
          have hb1 : unvisitedCount tm (name :: s.visited) + 1 ≤ fuel1 := by
            have := unvisited_insert tm s.visited name hkeys hnv
            omega
          obtain ⟨ls, s2, hgo⟩ :=
            go tm level info.parents ⟨name :: s.visited, s.levels⟩ hb1
          rw [hgo]
          exact ⟨_, _, rfl⟩

theorem calcLevel_cover :
    ∀ (fuel : Nat) (tm : TableMap) (name : String) (level : Nat)
      (s : LevelState) (r : Nat) (s2 : LevelState) (E : List String),
      calcLevel tm fuel name level s = some (r, s2) →
      LevelsCover E s →
      LevelsCover E s2
        ∧ (name ∈ E ∨ (lookupLevel s2.levels name).isSome = true) := by
  intro fuel
  induction fuel with
  | zero =>
    intro tm name level s r s2 E h
    simp [calcLevel] at h
  | succ fuel1 ih =>
    have go : ∀ (tm : TableMap) (level : Nat) (ps : List String)
        (s : LevelState) (rs : List Nat) (s2 : LevelState) (E : List String),
        calcLevelsGo (fun p st => calcLevel tm fuel1 p level st) ps s
            = some (rs, s2) →
        LevelsCover E s → LevelsCover E s2 := by
      intro tm level ps
      induction ps with
      | nil =>
        intro s rs s2 E h hc
        rw [calcLevelsGo] at h
        obtain ⟨-, rfl⟩ := Prod.mk.inj (Option.some.inj h)
        exact hc
      | cons p ps1 ihp =>
        intro s rs s2 E h hc
        rw [calcLevelsGo] at h
        cases h1 : calcLevel tm fuel1 p level s with
        | none => rw [h1] at h; exact absurd h (by simp)
        | some pr =>
          obtain ⟨l, s1⟩ := pr
          rw [h1] at h
          dsimp only at h
          cases h2 : calcLevelsGo (fun p st => calcLevel tm fuel1 p level st)
              ps1 s1 with
          | none => rw [h2] at h; exact absurd h (by simp)
          | some q =>
            obtain ⟨ls, s2'⟩ := q
            rw [h2] at h
            obtain ⟨-, rfl⟩ := Prod.mk.inj (Option.some.inj h)
            exact ihp s1 ls s2' E h2 (ih tm p level s l s1 E h1 hc).1
    intro tm name level s r s2 E h hc
    rw [calcLevel] at h
    by_cases hv : s.visited.contains name
    · rw [if_pos hv] at h
      obtain ⟨-, rfl⟩ := Prod.mk.inj (Option.some.inj h)
      exact ⟨hc, hc name (by simpa using hv)⟩
    · rw [if_neg hv] at h
      have hnv : name ∉ s.visited := by simpa using hv
      cases htm : tmGet tm name with
      | none =>
        rw [htm] at h
        dsimp only at h
        obtain ⟨-, rfl⟩ := Prod.mk.inj (Option.some.inj h)
        constructor
        · intro x hx
          rcases List.mem_cons.mp hx with rfl | hxs
          · exact Or.inr (lookupLevel_append_last _ _ _)
          · rcases hc x hxs with hE | hsome
            · exact Or.inl hE
            · obtain ⟨v, hv2⟩ := Option.isSome_iff_exists.mp hsome
              exact Or.inr (by
                unfold lookupLevel at hv2 ⊢
                rw [lookup_append_of_some _ hv2]
                rfl)
        · exact Or.inr (lookupLevel_append_last _ _ _)
      | some info =>
        rw [htm] at h
        dsimp only at h
        by_cases hpar : info.parents.isEmpty
        · rw [if_pos hpar] at h
          obtain ⟨-, rfl⟩ := Prod.mk.inj (Option.some.inj h)
          constructor
          · intro x hx
            rcases List.mem_cons.mp hx with rfl | hxs
            · exact Or.inr (lookupLevel_append_last _ _ _)
            · rcases hc x hxs with hE | hsome
              · exact Or.inl hE
              · obtain ⟨v, hv2⟩ := Option.isSome_iff_exists.mp hsome
                exact Or.inr (by
                  unfold lookupLevel at hv2 ⊢
                  rw [lookup_append_of_some _ hv2]
                  rfl)
          · exact Or.inr (lookupLevel_append_last _ _ _)
        · rw [if_neg hpar] at h
          cases hgo : calcLevelsGo (fun p st => calcLevel tm fuel1 p level st)
              info.parents ⟨name :: s.visited, s.levels⟩ with
          | none => rw [hgo] at h; exact absurd h (by simp)
          | some q =>
            obtain ⟨ls, s2'⟩ := q
            rw [hgo] at h
            dsimp only at h
            obtain ⟨-, rfl⟩ := Prod.mk.inj (Option.some.inj h)
            have hc1 : LevelsCover (name :: E)
                ⟨name :: s.visited, s.levels⟩ := by
              intro x hx
              rcases List.mem_cons.mp hx with rfl | hxs
              · exact Or.inl (by simp)
              · rcases hc x hxs with hE | hsome
                · exact Or.inl (by simp [hE])
                · exact Or.inr hsome
            have hc2 : LevelsCover (name :: E) s2' :=
              go tm level info.parents _ ls s2' (name :: E) hgo hc1
            constructor
            · intro x hx
              rcases hc2 x hx with hE | hsome
              · rcases List.mem_cons.mp hE with rfl | hEs
                · exact Or.inr (lookupLevel_append_last _ _ _)
                · exact Or.inl hEs
              · obtain ⟨v, hv2⟩ := Option.isSome_iff_exists.mp hsome
                exact Or.inr (by
                  unfold lookupLevel at hv2 ⊢
                  rw [lookup_append_of_some _ hv2]
                  rfl)
            · exact Or.inr (lookupLevel_append_last _ _ _)

/-- Strong fold lemma: from any cover-respecting start state, running the
level computation over a list of tables succeeds with the chosen fuel and
leaves every processed table levelled. -/
theorem foldl_levels_strong (tm : TableMap) :
    ∀ (ts : List String) (s : LevelState), LevelsCover [] s →
      ∃ s2, List.foldlM
          (fun s name => (calcLevel tm (levelFuel tm) name 0 s).map Prod.snd)
          s ts = some s2
        ∧ LevelsCover [] s2 ∧ StateLe s s2
        ∧ ∀ t ∈ ts, (lookupLevel s2.levels t).isSome = true := by
  intro ts
  induction ts with
  | nil =>
    intro s hc
    exact ⟨s, rfl, hc, stateLe_refl s, by simp⟩
  | cons t ts1 ih =>
    intro s hc
    have hb : unvisitedCount tm s.visited + 1 ≤ levelFuel tm := by
      have h1 := unvisited_le_length tm s.visited
      unfold levelFuel
      omega
    obtain ⟨r, s1, h1⟩ := calcLevel_total (levelFuel tm) tm t 0 s hb
    have hcov1 := calcLevel_cover (levelFuel tm) tm t 0 s r s1 [] h1 hc
    have hsome1 : (lookupLevel s1.levels t).isSome = true := by
      rcases hcov1.2 with hE | hsome
      · simp at hE
      · exact hsome
    obtain ⟨s2, h2, hcov2, hle2, hall⟩ := ih s1 hcov1.1
    refine ⟨s2, ?_, hcov2, stateLe_trans (calcLevel_mono _ _ _ _ _ _ _ h1).1 hle2, ?_⟩
    · rw [List.foldlM_cons, h1]
      simpa using h2
    · intro x hx
      rcases List.mem_cons.mp hx with rfl | hxs
      · obtain ⟨v, hv2⟩ := Option.isSome_iff_exists.mp hsome1
        rw [stateLe_lookup_some hle2 hv2]
        rfl
      · exact hall x hxs

/-- C2 (confirmed).  For every input grid and hidden-node set — cyclic
lineage and self-references included — the level computation terminates
(the fuel `tm.length + 1` is never exhausted, mirroring the JS recursion
never running forever) and every visible node receives a (finite, `Nat`)
level. -/
theorem graph_build_terminates (csvData : List (List String))
    (hidden : List String) :
    ∃ s, runLevels (buildTableMap (tableDataOf csvData))
          (visibleTables (buildTableMap (tableDataOf csvData)) hidden)
          = some s
      ∧ ∀ t ∈ visibleTables (buildTableMap (tableDataOf csvData)) hidden,
          (lookupLevel s.levels t).isSome = true := by
  obtain ⟨s2, h2, -, -, hall⟩ := foldl_levels_strong
    (buildTableMap (tableDataOf csvData))
    (visibleTables (buildTableMap (tableDataOf csvData)) hidden)
    ⟨[], []⟩ (by intro x hx; simp at hx)
  exact ⟨s2, h2, hall⟩

theorem forall₂_mem_left {α β : Type} {R : α → β → Prop} :
    ∀ {as : List α} {bs : List β}, List.Forall₂ R as bs →
      ∀ {a}, a ∈ as → ∃ b, b ∈ bs ∧ R a b := by
  intro as bs h
  induction h with
  | nil => intro a ha; simp at ha
  | @cons x y xs ys hab htl ih =>
    intro a ha
    rcases List.mem_cons.mp ha with rfl | has
    · exact ⟨y, by simp, hab⟩
    · obtain ⟨b, hb, hR⟩ := ih has
      exact ⟨b, by simp [hb], hR⟩

theorem le_foldl_max (ls : List Nat) :
    ∀ (i : Nat), i ≤ ls.foldl Nat.max i ∧ ∀ x ∈ ls, x ≤ ls.foldl Nat.max i := by
  induction ls with
  | nil => intro i; simp
  | cons a t ih =>
    intro i
    rw [List.foldl_cons]
    constructor
    · exact le_trans (Nat.le_max_left i a) (ih (Nat.max i a)).1
    · intro x hx
      rcases List.mem_cons.mp hx with rfl | hxs
      · exact le_trans (Nat.le_max_right i x) (ih (Nat.max i x)).1
      · exact (ih (Nat.max i a)).2 x hxs

theorem le_maxOfList {ls : List Nat} {x : Nat} (hx : x ∈ ls) :
    x ≤ maxOfList ls :=
  (le_foldl_max ls 0).2 x hx

theorem keysVisited_lookup_none {s : LevelState} (hkv : KeysVisited s)
    {name : String} (hnv : name ∉ s.visited) :
    lookupLevel s.levels name = none := by
  cases hl : lookupLevel s.levels name with
  | none => rfl
  | some v => exact absurd (hkv name (by simp [hl])) hnv

theorem calcLevel_acyclic :
    ∀ (fuel : Nat) (tm : TableMap) (name : String) (level : Nat)
      (s : LevelState) (r : Nat) (s2 : LevelState) (E : List String),
      Acyclic tm →
      (∀ e ∈ E, Relation.TransGen (Rel tm) name e) →
      KeysVisited s → LevelsCover E s → PInv tm s.levels →
      calcLevel tm fuel name level s = some (r, s2) →
      KeysVisited s2 ∧ PInv tm s2.levels
        ∧ lookupLevel s2.levels name = some r := by
  intro fuel
  induction fuel with
  | zero =>
    intro tm name level s r s2 E _ _ _ _ _ h
    simp [calcLevel] at h
  | succ fuel1 ih =>
    have go : ∀ (tm : TableMap) (level : Nat) (ps : List String)
        (s : LevelState) (rs : List Nat) (s2 : LevelState) (E : List String),
        Acyclic tm →
        (∀ p ∈ ps, ∀ e ∈ E, Relation.TransGen (Rel tm) p e) →
        KeysVisited s → LevelsCover E s → PInv tm s.levels →
        calcLevelsGo (fun p st => calcLevel tm fuel1 p level st) ps s
            = some (rs, s2) →
        KeysVisited s2 ∧ PInv tm s2.levels
          ∧ List.Forall₂ (fun p v => lookupLevel s2.levels p = some v) ps rs := by
      intro tm level ps
      induction ps with
      | nil =>
        intro s rs s2 E _ _ hkv hc hp h
        rw [calcLevelsGo] at h
        obtain ⟨hrs, rfl⟩ := Prod.mk.inj (Option.some.inj h)
        exact ⟨hkv, hp, by rw [← hrs]; exact List.Forall₂.nil⟩
      | cons p ps1 ihp =>
        intro s rs s2 E hacy hps hkv hc hp h
        rw [calcLevelsGo] at h
        cases h1 : calcLevel tm fuel1 p level s with
        | none => rw [h1] at h; exact absurd h (by simp)
        | some pr =>
          obtain ⟨l, s1⟩ := pr
          rw [h1] at h
          dsimp only at h
          cases h2 : calcLevelsGo (fun p st => calcLevel tm fuel1 p level st)
              ps1 s1 with
          | none => rw [h2] at h; exact absurd h (by simp)
          | some q =>
            obtain ⟨ls, s2'⟩ := q
            rw [h2] at h
            obtain ⟨hrs, rfl⟩ := Prod.mk.inj (Option.some.inj h)
            obtain ⟨hkv1, hp1, hl1⟩ := ih tm p level s l s1 E hacy
              (hps p (by simp)) hkv hc hp h1
            have hc1 : LevelsCover E s1 :=
              (calcLevel_cover fuel1 tm p level s l s1 E h1 hc).1
            obtain ⟨hkv2, hp2, hall2⟩ := ihp s1 ls s2' E hacy
              (fun x hx => hps x (by simp [hx])) hkv1 hc1 hp1 h2
            have hle2 : StateLe s1 s2' := calcLevelsGo_mono tm fuel1 level ps1 s1 ls s2' h2
            refine ⟨hkv2, hp2, ?_⟩
            rw [← hrs]
            exact List.Forall₂.cons (stateLe_lookup_some hle2 hl1) hall2
    intro tm name level s r s2 E hacy hE hkv hc hp h
    rw [calcLevel] at h
    by_cases hv : s.visited.contains name
    · rw [if_pos hv] at h
      obtain ⟨hr, rfl⟩ := Prod.mk.inj (Option.some.inj h)
      rcases hc name (by simpa using hv) with hnE | hsome
      · exact absurd (hE name hnE) (hacy name)
      · obtain ⟨v, hv2⟩ := Option.isSome_iff_exists.mp hsome
        rw [hv2] at hr
        refine ⟨hkv, hp, ?_⟩
        rw [hv2, ← hr]
        simp
    · rw [if_neg hv] at h
      have hnv : name ∉ s.visited := by simpa using hv
      have hnone : lookupLevel s.levels name = none :=
        keysVisited_lookup_none hkv hnv
      cases htm : tmGet tm name with
      | none =>
        rw [htm] at h
        dsimp only at h
        obtain ⟨hr, rfl⟩ := Prod.mk.inj (Option.some.inj h)
        refine ⟨?_, ?_, ?_⟩
        · intro k hk
          obtain ⟨v, hv2⟩ := Option.isSome_iff_exists.mp hk
          rcases lookupLevel_append_cases hv2 with hold | ⟨-, rfl, -⟩
          · exact List.mem_cons_of_mem _ (hkv k (by simp [hold]))
          · simp
        · intro c info lc hci hlc q hq
          rcases lookupLevel_append_cases hlc with hold | ⟨-, rfl, -⟩
          · obtain ⟨lp, hlp, hle⟩ := hp c info lc hci hold q hq
            refine ⟨lp, ?_, hle⟩
            unfold lookupLevel at hlp ⊢
            exact lookup_append_of_some _ hlp
          · rw [htm] at hci
            exact absurd hci (by simp)
        · unfold lookupLevel at hnone ⊢
          rw [lookup_append, hnone, lookup_cons, if_pos rfl, ← hr]
      | some info =>
        rw [htm] at h
        dsimp only at h
        by_cases hpar : info.parents.isEmpty
        · rw [if_pos hpar] at h
          obtain ⟨hr, rfl⟩ := Prod.mk.inj (Option.some.inj h)
          have hparnil : info.parents = [] := by simpa using hpar
          refine ⟨?_, ?_, ?_⟩
          · intro k hk
            obtain ⟨v, hv2⟩ := Option.isSome_iff_exists.mp hk
            rcases lookupLevel_append_cases hv2 with hold | ⟨-, rfl, -⟩
            · exact List.mem_cons_of_mem _ (hkv k (by simp [hold]))
            · simp
          · intro c info0 lc hci hlc q hq
            rcases lookupLevel_append_cases hlc with hold | ⟨-, rfl, -⟩
            · obtain ⟨lp, hlp, hle⟩ := hp c info0 lc hci hold q hq
              refine ⟨lp, ?_, hle⟩
              unfold lookupLevel at hlp ⊢
              exact lookup_append_of_some _ hlp
            · rw [htm] at hci
              obtain rfl := Option.some.inj hci
              rw [hparnil] at hq
              simp at hq
          · unfold lookupLevel at hnone ⊢
            rw [lookup_append, hnone, lookup_cons, if_pos rfl, ← hr]
        · rw [if_neg hpar] at h
          cases hgo : calcLevelsGo (fun p st => calcLevel tm fuel1 p level st)
              info.parents ⟨name :: s.visited, s.levels⟩ with
          | none => rw [hgo] at h; exact absurd h (by simp)
          | some q =>
            obtain ⟨ls, s2'⟩ := q
            rw [hgo] at h
            dsimp only at h
            obtain ⟨hr, rfl⟩ := Prod.mk.inj (Option.some.inj h)
            have hkv1 : KeysVisited ⟨name :: s.visited, s.levels⟩ := by
              intro k hk
              exact List.mem_cons_of_mem _ (hkv k hk)
            have hc1 : LevelsCover (name :: E)
                ⟨name :: s.visited, s.levels⟩ := by
              intro x hx
              rcases List.mem_cons.mp hx with rfl | hxs
              · exact Or.inl (by simp)
              · rcases hc x hxs with hxE | hsome
                · exact Or.inl (by simp [hxE])
                · exact Or.inr hsome
            have hps1 : ∀ p ∈ info.parents, ∀ e ∈ name :: E,
                Relation.TransGen (Rel tm) p e := by
              intro p hpmem e hemem
              rcases List.mem_cons.mp hemem with rfl | hes
              · exact Relation.TransGen.single ⟨info, htm, hpmem⟩
              · exact Relation.TransGen.head ⟨info, htm, hpmem⟩ (hE e hes)
            obtain ⟨hkv2, hp2, hall2⟩ := go tm level info.parents
              ⟨name :: s.visited, s.levels⟩ ls s2' (name :: E) hacy hps1
              hkv1 hc1 hp hgo
            have hle2 : StateLe ⟨name :: s.visited, s.levels⟩ s2' :=
              calcLevelsGo_mono tm fuel1 level info.parents _ ls s2' hgo
            have hnone2 : lookupLevel s2'.levels name = none := by
              obtain ⟨t, ht, hfresh⟩ := hle2.levels_ext
              unfold lookupLevel
              rw [ht]
              show List.lookup name (s.levels ++ t) = none
              rw [lookup_append]
              unfold lookupLevel at hnone
              rw [hnone]
              exact lookup_eq_none (fun kv hkv2 he =>
                hfresh kv hkv2 (by simp [he]))
            refine ⟨?_, ?_, ?_⟩
            · intro k hk
              obtain ⟨v, hv2⟩ := Option.isSome_iff_exists.mp hk
              rcases lookupLevel_append_cases hv2 with hold | ⟨-, rfl, -⟩
              · exact hkv2 k (by simp [hold])
              · exact hle2.visited_sub k (by simp)
            · intro c info0 lc hci hlc q hq
              rcases lookupLevel_append_cases hlc with hold | ⟨-, rfl, hlc2⟩
              · obtain ⟨lp, hlp, hle⟩ := hp2 c info0 lc hci hold q hq
                refine ⟨lp, ?_, hle⟩
                unfold lookupLevel at hlp ⊢
                exact lookup_append_of_some _ hlp
              · rw [htm] at hci
                obtain rfl := Option.some.inj hci
                obtain ⟨v, hvmem, hvlook⟩ := forall₂_mem_left hall2 hq
                refine ⟨v, ?_, ?_⟩
                · unfold lookupLevel at hvlook ⊢
                  exact lookup_append_of_some _ hvlook
                · have := le_maxOfList hvmem
                  omega
            · unfold lookupLevel at hnone2 ⊢
              rw [lookup_append, hnone2, lookup_cons, if_pos rfl, ← hr]

theorem foldlM_levels_mono (tm : TableMap) (fuel : Nat) :
    ∀ (ts : List String) (s s2 : LevelState),
      List.foldlM (fun s name => (calcLevel tm fuel name 0 s).map Prod.snd)
          s ts = some s2 →
      StateLe s s2 := by
  intro ts
  induction ts with
  | nil =>
    intro s s2 h
    obtain rfl : s = s2 := by simpa using h
    exact stateLe_refl s
  | cons t ts1 ih =>
    intro s s2 h
    rw [List.foldlM_cons] at h
    cases ht : calcLevel tm fuel t 0 s with
    | none => rw [ht] at h; simp at h
    | some pr =>
      obtain ⟨r, s1⟩ := pr
      rw [ht] at h
      have h2 : List.foldlM
          (fun s name => (calcLevel tm fuel name 0 s).map Prod.snd)
          s1 ts1 = some s2 := by simpa using h
      exact stateLe_trans (calcLevel_mono fuel tm t 0 s r s1 ht).1
        (ih s1 s2 h2)

/-- Fold lemma for the acyclic case: the final state satisfies the layering
invariant and levels every processed table. -/
theorem foldl_levels_pinv (tm : TableMap) (hacy : Acyclic tm) :
    ∀ (ts : List String) (s : LevelState),
      LevelsCover [] s → KeysVisited s → PInv tm s.levels →
      ∃ s2, List.foldlM
          (fun s name => (calcLevel tm (levelFuel tm) name 0 s).map Prod.snd)
          s ts = some s2
        ∧ LevelsCover [] s2 ∧ KeysVisited s2 ∧ PInv tm s2.levels
        ∧ ∀ t ∈ ts, (lookupLevel s2.levels t).isSome = true := by
  intro ts
  induction ts with
  | nil =>
    intro s hc hkv hp
    exact ⟨s, rfl, hc, hkv, hp, by simp⟩
  | cons t ts1 ih =>
    intro s hc hkv hp
    have hb : unvisitedCount tm s.visited + 1 ≤ levelFuel tm := by
      have h1 := unvisited_le_length tm s.visited
      unfold levelFuel
      omega
    obtain ⟨r, s1, h1⟩ := calcLevel_total (levelFuel tm) tm t 0 s hb
    obtain ⟨hkv1, hp1, hlook1⟩ := calcLevel_acyclic (levelFuel tm) tm t 0 s
      r s1 [] hacy (by simp) hkv hc hp h1
    have hc1 : LevelsCover [] s1 :=
      (calcLevel_cover (levelFuel tm) tm t 0 s r s1 [] h1 hc).1
    obtain ⟨s2, h2, hc2, hkv2, hp2, hall⟩ := ih s1 hc1 hkv1 hp1
    refine ⟨s2, ?_, hc2, hkv2, hp2, ?_⟩
    · rw [List.foldlM_cons, h1]
      simpa using h2
    · intro x hx
      rcases List.mem_cons.mp hx with rfl | hxs
      · have hle : StateLe s1 s2 :=
          foldlM_levels_mono tm (levelFuel tm) ts1 s1 s2 h2
        rw [stateLe_lookup_some hle hlook1]
        rfl
      · exact hall x hxs

theorem mem_foldl_origEdgeStep (hidden : List String) :
    ∀ (td : List TableData) (acc : List GraphEdge × Nat) (e : GraphEdge),
      e ∈ (td.foldl (origEdgeStep hidden) acc).1 →
      e ∈ acc.1
      ∨ ∃ r, r ∈ td ∧ e.source = r.parentTableName
          ∧ e.target = r.childTableName
          ∧ ¬ r.childTableName ∈ hidden ∧ ¬ r.parentTableName ∈ hidden := by
  intro td
  induction td with
  | nil => intro acc e he; exact Or.inl he
  | cons r rs ih =>
    intro acc e he
    rw [List.foldl_cons] at he
    rcases ih _ e he with hacc | ⟨r2, hr2, h⟩
    · unfold origEdgeStep at hacc
      by_cases hc : (!hidden.contains r.childTableName
          && !hidden.contains r.parentTableName) = true
      · rw [if_pos hc] at hacc
        rcases List.mem_append.mp hacc with h1 | h1
        · exact Or.inl h1
        · simp only [List.mem_singleton] at h1
          subst h1
          simp only [Bool.and_eq_true, Bool.not_eq_true'] at hc
          refine Or.inr ⟨r, by simp, rfl, rfl, ?_, ?_⟩
          · simpa using hc.1
          · simpa using hc.2
      · rw [if_neg hc] at hacc
        exact Or.inl hacc
    · exact Or.inr ⟨r2, by simp [hr2], h⟩

theorem mem_foldl_bypassEdgeStep :
    ∀ (bypass : List BypassEdge) (acc : List GraphEdge × Nat) (e : GraphEdge),
      e ∈ (bypass.foldl bypassEdgeStep acc).1 →
      e ∈ acc.1
      ∨ ∃ b, b ∈ bypass ∧ e.source = b.source ∧ e.target = b.target := by
  intro bypass
  induction bypass with
  | nil => intro acc e he; exact Or.inl he
  | cons b bs ih =>
    intro acc e he
    rw [List.foldl_cons] at he
    rcases ih _ e he with hacc | ⟨b2, hb2, h⟩
    · unfold bypassEdgeStep at hacc
      rcases List.mem_append.mp hacc with h1 | h1
      · exact Or.inl h1
      · simp only [List.mem_singleton] at h1
        subst h1
        exact Or.inr ⟨b, by simp, rfl, rfl⟩
    · exact Or.inr ⟨b2, by simp [hb2], h⟩

/-- Every emitted edge is either an input record with visible endpoints or
one of the synthesized bypass edges. -/
theorem mem_buildEdges {td : List TableData} {bypass : List BypassEdge}
    {hidden : List String} {e : GraphEdge}
    (he : e ∈ buildEdges td bypass hidden) :
    (∃ r, r ∈ td ∧ e.source = r.parentTableName ∧ e.target = r.childTableName
        ∧ ¬ r.childTableName ∈ hidden ∧ ¬ r.parentTableName ∈ hidden)
    ∨ ∃ b, b ∈ bypass ∧ e.source = b.source ∧ e.target = b.target := by
  unfold buildEdges at he
  rcases mem_foldl_bypassEdgeStep bypass _ e he with hacc | hby
  · rcases mem_foldl_origEdgeStep hidden td ([], 0) e hacc with h0 | horig
    · simp at h0
    · exact Or.inl horig
  · exact Or.inr hby

/-- Every bypass edge of a hidden node joins a visible parent of the node
to a visible child of it. -/
theorem mem_bypassFor {tm : TableMap} {H : List String} {x : String}
    {b : BypassEdge} (hb : b ∈ bypassFor tm H x) :
    ∃ info, tmGet tm x = some info ∧ b.source ∈ info.parents
      ∧ b.target ∈ info.children ∧ ¬ b.source ∈ H ∧ ¬ b.target ∈ H := by
  unfold bypassFor at hb
  cases htm : tmGet tm x with
  | none => rw [htm] at hb; simp at hb
  | some info =>
    rw [htm] at hb
    rw [List.mem_flatMap] at hb
    obtain ⟨parent, hpmem, hb⟩ := hb
    by_cases hp : H.contains parent
    · rw [if_pos hp] at hb
      simp at hb
    · rw [if_neg hp, List.mem_flatMap] at hb
      obtain ⟨child, hcmem, hb⟩ := hb
      by_cases hc : H.contains child
      · rw [if_pos hc] at hb
        simp at hb
      · rw [if_neg hc] at hb
        simp only [List.mem_singleton] at hb
        subst hb
        exact ⟨info, rfl, hpmem, hcmem, by simpa using hp, by simpa using hc⟩

theorem mem_createBypassEdges {tm : TableMap} {H : List String}
    {b : BypassEdge} (hb : b ∈ createBypassEdges tm H) :
    ∃ x info, x ∈ H ∧ tmGet tm x = some info ∧ b.source ∈ info.parents
      ∧ b.target ∈ info.children ∧ ¬ b.source ∈ H ∧ ¬ b.target ∈ H := by
  unfold createBypassEdges at hb
  rw [List.mem_flatMap] at hb
  obtain ⟨x, hx, hb⟩ := hb
  obtain ⟨info, h1, h2, h3, h4, h5⟩ := mem_bypassFor hb
  exact ⟨x, info, hx, h1, h2, h3, h4, h5⟩

/-- A record of the input makes its parent a member of the child's stored
parents list. -/
theorem record_in_map {td : List TableData} {r : TableData} (hr : r ∈ td) :
    ∃ infoC, tmGet (buildTableMap td) r.childTableName = some infoC
      ∧ r.parentTableName ∈ infoC.parents := by
  have hmem : r.parentTableName
      ∈ parentsOf (buildTableMap td) r.childTableName := by
    rw [← List.count_pos_iff, parents_count]
    exact List.length_pos_of_mem (List.mem_filter.mpr ⟨hr, by simp⟩)
  unfold parentsOf at hmem
  cases htm : tmGet (buildTableMap td) r.childTableName with
  | none => rw [htm] at hmem; simp at hmem
  | some info =>
    rw [htm] at hmem
    exact ⟨info, rfl, by simpa using hmem⟩

/-- A member of a stored parents list comes from some input record. -/
theorem mem_parentsOf_record {td : List TableData} {c p : String}
    (hp : p ∈ parentsOf (buildTableMap td) c) :
    ∃ r, r ∈ td ∧ r.parentTableName = p ∧ r.childTableName = c := by
  have hcount : 0 < (parentsOf (buildTableMap td) c).count p :=
    List.count_pos_iff.mpr hp
  rw [parents_count] at hcount
  obtain ⟨r, hrmem⟩ := List.exists_mem_of_length_pos hcount
  obtain ⟨hrtd, hpred⟩ := List.mem_filter.mp hrmem
  simp only [Bool.and_eq_true, beq_iff_eq] at hpred
  exact ⟨r, hrtd, hpred.1, hpred.2⟩

/-- A member of a stored children list comes from some input record. -/
theorem mem_childrenOf_record {td : List TableData} {p c : String}
    (hc : c ∈ childrenOf (buildTableMap td) p) :
    ∃ r, r ∈ td ∧ r.parentTableName = p ∧ r.childTableName = c := by
  have hcount : 0 < (childrenOf (buildTableMap td) p).count c :=
    List.count_pos_iff.mpr hc
  rw [children_count] at hcount
  obtain ⟨r, hrmem⟩ := List.exists_mem_of_length_pos hcount
  obtain ⟨hrtd, hpred⟩ := List.mem_filter.mp hrmem
  simp only [Bool.and_eq_true, beq_iff_eq] at hpred
  exact ⟨r, hrtd, hpred.1, hpred.2⟩

theorem mem_visibleTables {tm : TableMap} {hidden : List String} {x : String}
    {info : TableInfo} (hx : tmGet tm x = some info) (hh : ¬ x ∈ hidden) :
    x ∈ visibleTables tm hidden := by
  unfold visibleTables
  rw [List.mem_filter]
  exact ⟨mem_keys_of_lookup hx, by simpa using hh⟩

/-- C1 (confirmed).  For an acyclic parent/child relation, the level
assignment computed for the displayed graph satisfies, for every emitted
edge (original or bypass): the target is levelled, the source is levelled
strictly below it (`level source + 1 ≤ level target`), and every stored
parent of the target sits strictly below the target — i.e.
`level(child) ≥ 1 + max(level(parent))` over the child's parents. -/
theorem levels_respect_edges (csvData : List (List String))
    (hidden : List String) (pos : List (String × Nat × Nat))
    (hacy : Acyclic (buildTableMap (tableDataOf csvData))) :
    ∃ s, runLevels (buildTableMap (tableDataOf csvData))
          (visibleTables (buildTableMap (tableDataOf csvData)) hidden)
          = some s
      ∧ ∀ e ∈ (initialGraph csvData hidden pos).2,
          ∃ lt, lookupLevel s.levels e.target = some lt
            ∧ (∃ lsrc, lookupLevel s.levels e.source = some lsrc
                ∧ lsrc + 1 ≤ lt)
            ∧ ∀ info, tmGet (buildTableMap (tableDataOf csvData)) e.target
                  = some info →
                ∀ p ∈ info.parents, ∃ lp, lookupLevel s.levels p = some lp
                  ∧ lp + 1 ≤ lt := by
  obtain ⟨s, hrun, hcov, hkv, hpinv, hall⟩ := foldl_levels_pinv
    (buildTableMap (tableDataOf csvData)) hacy
    (visibleTables (buildTableMap (tableDataOf csvData)) hidden)
    ⟨[], []⟩
    (by intro x hx; simp at hx)
    (by intro k hk; simp [lookupLevel, List.lookup] at hk)
    (by intro c info lc _ hlc; simp [lookupLevel, List.lookup] at hlc)
  refine ⟨s, hrun, ?_⟩
  intro e he
  unfold initialGraph at he
  split at he
  · simp at he
  · split at he
    · simp at he
    · rcases mem_buildEdges he with
        ⟨r, hrtd, hsrc, htgt, hch, hph⟩ | ⟨b, hbmem, hsrc, htgt⟩
      · obtain ⟨infoC, hciC, hpmem⟩ := record_in_map hrtd
        have hvisC := mem_visibleTables hciC hch
        obtain ⟨lt, hlt⟩ := Option.isSome_iff_exists.mp (hall _ hvisC)
        refine ⟨lt, by rw [htgt]; exact hlt, ?_, ?_⟩
        · obtain ⟨lp, hlp, hle⟩ := hpinv _ infoC lt hciC hlt _ hpmem
          exact ⟨lp, by rw [hsrc]; exact hlp, hle⟩
        · intro info hinfo q hq
          rw [htgt] at hinfo
          exact hpinv _ info lt hinfo hlt q hq
      · obtain ⟨x, infoH, hxH, hxi, hsp, htc, hsH, htH⟩ :=
          mem_createBypassEdges hbmem
        have htc2 : b.target ∈ childrenOf (buildTableMap (tableDataOf csvData)) x := by
          unfold childrenOf
          rw [hxi]
          simpa using htc
        obtain ⟨r1, hr1td, hr1p, hr1c⟩ := mem_childrenOf_record htc2
        obtain ⟨infoT, hciT, hxmem⟩ := record_in_map hr1td
        rw [hr1c] at hciT
        rw [hr1p] at hxmem
        have hvisT := mem_visibleTables hciT htH
        obtain ⟨lt, hlt⟩ := Option.isSome_iff_exists.mp (hall _ hvisT)
        obtain ⟨lx, hlx, hlex⟩ := hpinv b.target infoT lt hciT hlt x hxmem
        obtain ⟨lsrc, hlsrc, hlesrc⟩ := hpinv x infoH lx hxi hlx b.source hsp
        refine ⟨lt, by rw [htgt]; exact hlt,
          ⟨lsrc, by rw [hsrc]; exact hlsrc, by omega⟩, ?_⟩
        intro info hinfo q hq
        rw [htgt] at hinfo
        exact hpinv _ info lt hinfo hlt q hq

/-- A rank function decreasing along the parent relation certifies
acyclicity. -/
theorem acyclic_of_rank (tm : TableMap) (f : String → Nat)
    (hf : ∀ p c, Rel tm p c → f c < f p) : Acyclic tm := by
  intro x hx
  have hlt : ∀ a b, Relation.TransGen (Rel tm) a b → f b < f a := by
    intro a b h
    induction h with
    | single h1 => exact hf _ _ h1
    | tail _ h1 ih => exact lt_trans (hf _ _ h1) ih
  exact absurd (hlt x x hx) (lt_irrefl _)

/-- The example chain `c → b → a` is acyclic, certified by `chainRank`. -/
theorem chainGrid_acyclic : Acyclic (buildTableMap (tableDataOf chainGrid)) := by
  apply acyclic_of_rank _ chainRank
  intro p c hrel
  obtain ⟨info, hget, hp⟩ := hrel
  have htm : buildTableMap (tableDataOf chainGrid)
      = [("b", ⟨"T2", ["a"], ["c"]⟩), ("a", ⟨"T1", [], ["b"]⟩),
         ("c", ⟨"T1", ["b"], []⟩)] := by decide
  rw [htm] at hget
  unfold tmGet at hget
  rw [lookup_cons] at hget
  by_cases hc1 : c = "b"
  · rw [if_pos hc1] at hget
    obtain rfl := Option.some.inj hget
    have hpc : p = "c" := by simpa using hp
    rw [hc1, hpc]
    decide
  · rw [if_neg hc1, lookup_cons] at hget
    by_cases hc2 : c = "a"
    · rw [if_pos hc2] at hget
      obtain rfl := Option.some.inj hget
      have hpb : p = "b" := by simpa using hp
      rw [hc2, hpb]
      decide
    · rw [if_neg hc2, lookup_cons] at hget
      by_cases hc3 : c = "c"
      · rw [if_pos hc3] at hget
        obtain rfl := Option.some.inj hget
        simp at hp
      · rw [if_neg hc3] at hget
        simp [List.lookup] at hget

theorem levels_respect_edges_witness :
    Acyclic (buildTableMap (tableDataOf chainGrid))
    ∧ (∃ s, runLevels (buildTableMap (tableDataOf chainGrid))
          (visibleTables (buildTableMap (tableDataOf chainGrid)) [])
          = some s
      ∧ ∀ e ∈ (initialGraph chainGrid [] []).2,
          ∃ lt, lookupLevel s.levels e.target = some lt
            ∧ (∃ lsrc, lookupLevel s.levels e.source = some lsrc
                ∧ lsrc + 1 ≤ lt)
            ∧ ∀ info, tmGet (buildTableMap (tableDataOf chainGrid)) e.target
                  = some info →
                ∀ p ∈ info.parents, ∃ lp, lookupLevel s.levels p = some lp
                  ∧ lp + 1 ≤ lt) :=
  ⟨chainGrid_acyclic, levels_respect_edges chainGrid [] [] chainGrid_acyclic⟩

end Lineage
